import Mathlib

/-!
# Verification of the verifybibtex single-entry BibTeX parser

Shallow embedding of `parser/ents.go` (package `parser`).  Strings are
modelled as `List Char`; Go's `map[string]string` is modelled as an
association list in insertion order where an existing key is updated in
place.  Every definition is translated from the Go source; the regular
expressions used by the source (`regexRemoveComments`,
`regexRemoveWhiteSpace`, `regexFindFieldNames`, `regexFindID`) are
embedded as deterministic scanners that realise Go's leftmost-first
match semantics for those specific patterns (for each of these patterns
the character classes involved are pairwise disjoint, so greedy matching
without backtracking coincides with the regexp engine's behaviour).
Functions whose recursion is not structural are written with an explicit
fuel parameter (initialised with the length of the input, which each
step strictly decreases) so that all definitions reduce by `rfl`/`decide`.
-/

namespace VerifyBibTeX

/-- Go `unicode.IsSpace` (used by `strings.TrimSpace`): tab, LF, VT, FF,
    CR, space, NEL, NBSP and the Unicode `White_Space` code points. -/
def isGoSpace (c : Char) : Bool :=
  let n := c.toNat
  n = 9 || n = 10 || n = 11 || n = 12 || n = 13 || n = 32 ||
  n = 0x85 || n = 0xa0 || n = 0x1680 || (0x2000 <= n && n <= 0x200a) ||
  n = 0x2028 || n = 0x2029 || n = 0x202f || n = 0x205f || n = 0x3000

/-- Go regexp `\s` character class: `[\t\n\f\r ]` (note: no `\v`). -/
def isRegexWs (c : Char) : Bool :=
  let n := c.toNat
  n = 9 || n = 10 || n = 12 || n = 13 || n = 32

/-- ASCII letter, as matched by `[a-zA-Z]` in Go regexp. -/
def isAsciiLetter (c : Char) : Bool :=
  let n := c.toNat
  (97 <= n && n <= 122) || (65 <= n && n <= 90)

/-- Character class `[a-zA-Z\s]` of `regexFindFieldNames`. -/
def isClassChar (c : Char) : Bool := isAsciiLetter c || isRegexWs c

/-- Character class `[{"]` of `regexFindFieldNames`. -/
def isDelimChar (c : Char) : Bool := c = '{' || c = '"'

/-- Character class `[a-zA-Z-:_0-9]` of `regexFindID`
    (letters, digits, hyphen, colon, underscore). -/
def isIdChar (c : Char) : Bool :=
  let n := c.toNat
  isAsciiLetter c || (48 <= n && n <= 57) || n = 45 || n = 58 || n = 95

/-- Go `strings.TrimSpace` on a rune list. -/
def trimSpace (l : List Char) : List Char :=
  ((l.dropWhile isGoSpace).reverse.dropWhile isGoSpace).reverse

/-- The `strings.NewReplacer("\n", "", "\r", "", "\t", "")` pass of
    `cleanRawEntry`: delete all line feeds, carriage returns and tabs. -/
def removeNLT (l : List Char) : List Char :=
  l.filter (fun c => !(c = '\n' || c = '\r' || c = '\t'))

/-- Drop the `[^\n\r]*` tail of a comment: everything up to (excluding)
    the next line break. -/
def dropComment (l : List Char) : List Char :=
  l.dropWhile (fun c => !(c = '\n' || c = '\r'))

/-- Fuelled scanner for `regexRemoveComments.ReplaceAllString(s, "")` with
    pattern `(^|[^\\])%[^\n\r]*`, at positions after the start of the text:
    a match consumes one non-backslash character, the `%`, and the rest of
    the physical line.  Note that the preceding character is part of the
    match and is therefore deleted together with the comment. -/
def removeCommentsAuxF : Nat → List Char → List Char
  | 0, l => l
  | _ + 1, [] => []
  | _ + 1, [c] => [c]
  | fuel + 1, c :: d :: rest =>
    if c ≠ '\\' ∧ d = '%' then
      removeCommentsAuxF fuel (dropComment rest)
    else
      c :: removeCommentsAuxF fuel (d :: rest)

/-- The comment scanner with enough fuel for its input. -/
def removeCommentsAux (l : List Char) : List Char :=
  removeCommentsAuxF l.length l

/-- Go `regexRemoveComments.ReplaceAllString(s, "")`: the `^`-alternative
    of `(^|[^\\])%[^\n\r]*` can only fire at the very beginning of the
    text (no `(?m)` flag), the `[^\\]`-alternative everywhere else. -/
def removeComments (l : List Char) : List Char :=
  match l with
  | [] => removeCommentsAux ([])
  | c :: rest =>
    if c = '%' then removeCommentsAux (dropComment rest)
    else removeCommentsAux (c :: rest)

/-- Fuelled scanner for `regexRemoveWhiteSpace.ReplaceAllString(s, " ")`
    with pattern `\s{2,}`: every maximal run of two or more
    regexp-whitespace characters is replaced by a single space. -/
def collapseWsF : Nat → List Char → List Char
  | 0, l => l
  | _ + 1, [] => []
  | _ + 1, [c] => [c]
  | fuel + 1, c :: d :: rest =>
    if isRegexWs c ∧ isRegexWs d then
      ' ' :: collapseWsF fuel (rest.dropWhile isRegexWs)
    else
      c :: collapseWsF fuel (d :: rest)

/-- The whitespace collapser with enough fuel for its input. -/
def collapseWs (l : List Char) : List Char :=
  collapseWsF l.length l

/-- `cleanRawEntry` from ents.go: trim, strip `%` comments, delete line
    breaks / carriage returns / tabs, collapse multiple whitespace. -/
def cleanRawEntry (l : List Char) : List Char :=
  collapseWs (removeNLT (removeComments (trimSpace l)))

/-- The two error structs of ents.go, `ErrParsingEntry` and
    `ErrEmptyString`, with their `Message` payload.  In the spec's error
    taxonomy: `EmptyInput` is `errEmptyString "The string is empty."`,
    `MalformedHeader` is `errParsingEntry "Cannot parse entry type …"`,
    `UnterminatedEntry` is `errParsingEntry "The last char in fields list
    should be '\x7d'."`, `InvalidFieldDelimiter` is `errParsingEntry "The
    first and last char in field value …"` and `KeyNotFound` is
    `errParsingEntry "Could not find ID in BibTeX entry."`. -/
inductive BibErr where
  | errParsingEntry (msg : List Char)
  | errEmptyString (msg : List Char)
deriving DecidableEq

/-- `&ErrEmptyString\x7bMessage: "The string is empty."\x7d`. -/
def errTheStringIsEmpty : BibErr :=
  .errEmptyString (("The string is empty.").data)

/-- `MalformedHeader`: the header does not start with `@`. -/
def errCannotParseEntryType (s : List Char) : BibErr :=
  .errParsingEntry (("Cannot parse entry type from this entry: ").data ++ s)

/-- Error raised by `parseFields`/`parseID` when the entry has no `\x7b`. -/
def errCouldNotSplit (s : List Char) : BibErr :=
  .errParsingEntry (("Could not split on '\x7b': ").data ++ s)

/-- `UnterminatedEntry`: the body does not end with `\x7d`. -/
def errLastCharFields : BibErr :=
  .errParsingEntry (("The last char in fields list should be '\x7d'.").data)

/-- `InvalidFieldDelimiter`, with the trimmed value in the message. -/
def errDelimMsg (v : List Char) : BibErr :=
  .errParsingEntry
    (("The first and last char in field value should either be \x7b\x7d or \x22\x22: ").data ++ v)

/-- `KeyNotFound`. -/
def errNoKeyFound : BibErr :=
  .errParsingEntry (("Could not find ID in BibTeX entry.").data)

/-- Error of `ParseNewEntry` when cleaning leaves nothing. -/
def errEmptyAfterCleaning : BibErr :=
  .errParsingEntry (("Entry is empty after cleaning.").data)

/-- Go `strings.Split(s, "\x7b")`, specialised to the one-character
    separator used by `parseEntryType`; always returns a non-empty list
    whose head is the text before the first `\x7b`. -/
def goSplitBrace : List Char → List (List Char)
  | [] => [[]]
  | c :: rest =>
    if c = '{' then [] :: goSplitBrace rest
    else
      match goSplitBrace rest with
      | [] => [[c]]
      | p :: ps => (c :: p) :: ps

/-- `parseEntryType` from ents.go: empty check, split on the first
    `\x7b`, take element 0 (`safeGet`), trim, re-check emptiness, demand a
    leading `@`, and return the rest of the trimmed header. -/
def parseEntryType (s : List Char) : Except BibErr (List Char) :=
  if s.isEmpty then .error errTheStringIsEmpty
  else
    match (goSplitBrace s).head? with
    | none =>
      .error (.errParsingEntry (("Could not split entry on '\x7b': ").data ++ s))
    | some entryType =>
      match trimSpace entryType with
      | [] => .error errTheStringIsEmpty
      | c :: rest =>
        if c ≠ '@' then .error (errCannotParseEntryType s) else .ok rest

/-- Go `strings.Cut(s, "\x7b")`: `some (before, after)` around the first
    `\x7b`, or `none` when the separator does not occur. -/
def cutBrace : List Char → Option (List Char × List Char)
  | [] => none
  | c :: rest =>
    if c = '{' then some ([], rest)
    else
      match cutBrace rest with
      | none => none
      | some (b, a) => some (c :: b, a)

/-- Go's `map[string]string` as an association list: an existing key is
    overwritten in place, a new key is appended. -/
abbrev FieldMap := List (List Char × List Char)

/-- `fieldsHashMap[k] = v`. -/
def mapInsert (k v : List Char) (m : FieldMap) : FieldMap :=
  if m.any (fun p => p.1 = k) then m.map (fun p => if p.1 = k then (k, v) else p)
  else m ++ [(k, v)]

/-- Result of the value-cleaning block of `parseFields` (lines 181–199 and
    218–231 of ents.go): `emptyVal` when the slice trims to nothing (the
    loop `continue`s / the trailing block skips), `errDelim` when the
    first/last characters are not a matching `\x7b \x7d` or `\x22 \x22`
    pair (carrying the trimmed value used in the error message), `goPanic`
    when Go would panic (slicing `vrunes[1:0]` for a lone `\x22`, or
    indexing an empty slice when the value was a lone comma). -/
inductive CFV where
  | val (w : List Char)
  | emptyVal
  | errDelim (trimmed : List Char)
  | goPanic
deriving DecidableEq

/-- Lines 190–193 / 222–225 of ents.go: if the last character of the
    (already trimmed) value is a comma, drop it and trim again. -/
def stripTrailComma (v : List Char) : List Char :=
  if v.getLast? = some ',' then trimSpace v.dropLast else v

/-- The value-cleaning block of `parseFields`: trim, strip one trailing
    comma (re-trimming), then strip exactly one matching delimiter pair. -/
def cleanFieldValue (raw : List Char) : CFV :=
  let v := trimSpace raw
  if v.isEmpty then .emptyVal
  else
    match stripTrailComma v with
    | [] => .goPanic
    | a :: rest =>
      match rest.getLast? with
      | none => if a = '"' then .goPanic else .errDelim v
      | some b =>
        if (a = '"' ∧ b = '"') ∨ (a = '{' ∧ b = '}') then .val rest.dropLast
        else .errDelim v

/-- The field-name cleaning of `parseFields` (lines 205–208): remove all
    `=`, trim, lower-case.  `Char.toLower` coincides with Go
    `strings.ToLower` here because every character a field-name slice can
    contain (the classes `[a-zA-Z\s]`, `=`, `\x7b`, `\x22`) is ASCII. -/
def cleanFieldName (n : List Char) : List Char :=
  (trimSpace (n.filter (fun c => c ≠ '='))).map Char.toLower

/-- One attempt of `regexFindFieldNames` = `([a-zA-Z\s]+)=(?:\s*[{"]+)` at
    the current position: a maximal non-empty run of `[a-zA-Z\s]`, the
    literal `=`, optional `\s*`, and a maximal non-empty run of `[{"]`.
    Returns `(match text without its final character, final character of
    the match, rest of the input)` — exactly the slices
    `innerField[match[0]:match[1]-1]` and `innerField[match[1]-1:]` that
    `parseFields` works with. -/
def tryFieldMatch (l : List Char) : Option (List Char × Char × List Char) :=
  let run := l.takeWhile isClassChar
  if run.isEmpty then none
  else
    match l.dropWhile isClassChar with
    | [] => none
    | c :: r2 =>
      if c = '=' then
        let ws := r2.takeWhile isRegexWs
        let r3 := r2.dropWhile isRegexWs
        let delims := r3.takeWhile isDelimChar
        match delims.getLast? with
        | none => none
        | some d =>
          some (run ++ '=' :: (ws ++ delims.dropLast), d, r3.dropWhile isDelimChar)
      else none

/-- Fuelled `regexFindFieldNames.FindAllStringIndex(innerField, -1)`:
    leftmost-first non-overlapping matches.  Returns the gap before the
    first match and, per match, the name part, the final delimiter
    character and the gap up to the next match. -/
def scanFieldsF : Nat → List Char → List Char × List (List Char × Char × List Char)
  | 0, l => (l, [])
  | _ + 1, [] => ([], [])
  | fuel + 1, c :: rest =>
    match tryFieldMatch (c :: rest) with
    | some (np, d, after) =>
      let (g, toks) := scanFieldsF fuel after
      ([], (np, d, g) :: toks)
    | none =>
      let (g, toks) := scanFieldsF fuel rest
      (c :: g, toks)

/-- The field-name scanner with enough fuel for its input. -/
def scanFields (l : List Char) : List Char × List (List Char × Char × List Char) :=
  scanFieldsF l.length l

/-- Result of `parseFields`: the map, an error, or a Go runtime panic. -/
inductive PFRes where
  | ok (m : FieldMap)
  | err (e : BibErr)
  | panics
deriving DecidableEq

/-- The match loop of `parseFields` (lines 172–234 of ents.go), in terms
    of the scanner tokens.  `prev` is `previousFieldName`; `vtext` is the
    slice `innerField[lastIndex:…]` accumulated since the last update of
    `lastIndex` (the `continue` on an empty value skips that update, so
    the skipped match text is appended to `vtext`).  The empty-token case
    is the trailing block after the loop: `lastIndex < len(innerField)`
    iff `vtext` is non-empty. -/
def fieldsLoop :
    List (List Char × Char × List Char) → List Char → List Char → FieldMap → PFRes
  | [], prev, vtext, acc =>
    if vtext.isEmpty then .ok acc
    else if prev.isEmpty then .ok acc
    else
      match cleanFieldValue vtext with
      | .emptyVal => .ok acc
      | .errDelim v => .err (errDelimMsg v)
      | .goPanic => .panics
      | .val w => .ok (mapInsert prev w acc)
  | (np, d, gap) :: toks, prev, vtext, acc =>
    if !vtext.isEmpty && !prev.isEmpty then
      match cleanFieldValue vtext with
      | .emptyVal => fieldsLoop toks prev (vtext ++ (np ++ d :: gap)) acc
      | .errDelim v => .err (errDelimMsg v)
      | .goPanic => .panics
      | .val w =>
        let acc2 := mapInsert prev w acc
        let n := cleanFieldName np
        if n.isEmpty then fieldsLoop toks prev (d :: gap) acc2
        else fieldsLoop toks n (d :: gap) (mapInsert n ([]) acc2)
    else
      let n := cleanFieldName np
      if n.isEmpty then fieldsLoop toks prev (d :: gap) acc
      else fieldsLoop toks n (d :: gap) (mapInsert n ([]) acc)

/-- `parseFields` from ents.go: cut on the first `\x7b`, trim the body,
    require and drop the trailing `\x7d`, then run the match loop. -/
def parseFields (s : List Char) : PFRes :=
  match cutBrace s with
  | none => .err (errCouldNotSplit s)
  | some (_, after) =>
    let inner := trimSpace after
    match inner.getLast? with
    | none => .err errTheStringIsEmpty
    | some c =>
      if c ≠ '}' then .err errLastCharFields
      else
        let sc := scanFields inner.dropLast
        fieldsLoop sc.2 ([]) sc.1 ([])

/-- One attempt of `regexFindID` = `(^|,)\s*[a-zA-Z-:_0-9]+\s*(,|$)` at
    the current position, after the optional leading comma: `\s*`, a
    non-empty run of ID characters, `\s*`, then either end of text or a
    comma (which is part of the match).  Returns the matched text. -/
def tryBare (l : List Char) : Option (List Char) :=
  let w1 := l.takeWhile isRegexWs
  let r1 := l.dropWhile isRegexWs
  let ids := r1.takeWhile isIdChar
  if ids.isEmpty then none
  else
    let r2 := r1.dropWhile isIdChar
    let w2 := r2.takeWhile isRegexWs
    match r2.dropWhile isRegexWs with
    | [] => some (w1 ++ ids ++ w2)
    | c :: _ => if c = ',' then some (w1 ++ ids ++ w2 ++ [',']) else none

/-- `regexFindID` scanning at positions with a leading comma. -/
def findIDAux : List Char → Option (List Char)
  | [] => none
  | c :: rest =>
    if c = ',' then
      match tryBare rest with
      | some m => some (',' :: m)
      | none => findIDAux rest
    else findIDAux rest

/-- Go `regexFindID.FindString(body)`: the `^`-alternative can only fire
    at the very beginning, the `,`-alternative anywhere (leftmost match,
    alternatives tried in order at equal positions). -/
def findID (s : List Char) : Option (List Char) :=
  match tryBare s with
  | some m => some m
  | none => findIDAux s

/-- `parseID` from ents.go: same header/body split as `parseFields`, then
    `regexFindID.FindString`, strip one leading and one trailing comma,
    trim, and fail when nothing is left. -/
def parseID (s : List Char) : Except BibErr (List Char) :=
  match cutBrace s with
  | none => .error (errCouldNotSplit s)
  | some (_, after) =>
    let inner := trimSpace after
    match inner.getLast? with
    | none => .error errTheStringIsEmpty
    | some c =>
      if c ≠ '}' then .error errLastCharFields
      else
        let id0 := (findID inner.dropLast).getD ([])
        let id1 := if id0.head? = some ',' then id0.tail else id0
        let id2 := if id1.getLast? = some ',' then id1.dropLast else id1
        let idt := trimSpace id2
        if idt.isEmpty then .error errNoKeyFound else .ok idt

/-- The `Entry` struct of ents.go.  `fields` is `none` when the Go map is
    `nil` — which is what `parseFields` returns together with an error. -/
structure Entry where
  entryType : List Char
  key : List Char
  rawEntry : List Char
  cleanEntry : List Char
  fields : Option FieldMap
deriving DecidableEq

/-- Observable outcome of `ParseNewEntry`: the returned `(*Entry, error)`
    pair, or a runtime panic propagated from `parseFields`. -/
inductive GoRes where
  | ret (entry : Option Entry) (err : Option BibErr)
  | panics
deriving DecidableEq

/-- `ParseNewEntry` from ents.go: clean, reject empty, parse the entry
    type (fatal on error), then parse fields and key.  Field and key
    errors are only written to `debugLog`; the error returned to the
    caller is `nil`, `Fields` stays the `nil` map returned by a failing
    `parseFields`, and `Key` stays `""` when `parseID` fails. -/
def ParseNewEntry (raw : List Char) : GoRes :=
  let clean := cleanRawEntry raw
  if clean.isEmpty then .ret none (some errEmptyAfterCleaning)
  else
    match parseEntryType clean with
    | .error e => .ret none (some e)
    | .ok et =>
      match parseFields clean with
      | .panics => .panics
      | pf =>
        let flds : Option FieldMap := match pf with | .ok m => some m | _ => none
        let key := match parseID clean with | .ok k => k | .error _ => []
        .ret (some ⟨et, key, raw, clean, flds⟩) none

/-! ## General list helpers -/

theorem takeWhile_append_all {α : Type} {p : α → Bool} {l₁ l₂ : List α}
    (h : ∀ a ∈ l₁, p a = true) :
    (l₁ ++ l₂).takeWhile p = l₁ ++ l₂.takeWhile p := by
  induction l₁ with
  | nil => simp
  | cons a l ih =>
    simp only [List.cons_append, List.takeWhile_cons, h a (List.mem_cons_self a l),
      if_true, List.cons.injEq, true_and]
    exact ih fun b hb => h b (List.mem_cons_of_mem a hb)

theorem dropWhile_append_all {α : Type} {p : α → Bool} {l₁ l₂ : List α}
    (h : ∀ a ∈ l₁, p a = true) :
    (l₁ ++ l₂).dropWhile p = l₂.dropWhile p := by
  induction l₁ with
  | nil => simp
  | cons a l ih =>
    simp only [List.cons_append, List.dropWhile_cons, h a (List.mem_cons_self a l), if_true]
    exact ih fun b hb => h b (List.mem_cons_of_mem a hb)

theorem dropWhile_eq_self_of_head {α : Type} {p : α → Bool} {l : List α}
    (h : ∀ c, l.head? = some c → p c = false) : l.dropWhile p = l := by
  cases l with
  | nil => rfl
  | cons a t => simp [List.dropWhile_cons, h a rfl]

theorem head?_dropWhile_false {α : Type} {p : α → Bool} :
    ∀ {l : List α} {c : α}, (l.dropWhile p).head? = some c → p c = false := by
  intro l
  induction l with
  | nil => intro c h; simp at h
  | cons a t ih =>
    intro c h
    rw [List.dropWhile_cons] at h
    by_cases hp : p a = true
    · exact ih (by rwa [if_pos hp] at h)
    · rw [if_neg hp] at h
      simp only [List.head?_cons, Option.some.injEq] at h
      subst h
      exact Bool.eq_false_iff.mpr hp

/-! ## trimSpace helpers -/

theorem trimSpace_nil : trimSpace ([] : List Char) = [] := rfl

theorem trimSpace_eq_self {l : List Char}
    (h1 : ∀ c, l.head? = some c → isGoSpace c = false)
    (h2 : ∀ c, l.getLast? = some c → isGoSpace c = false) : trimSpace l = l := by
  unfold trimSpace
  rw [dropWhile_eq_self_of_head h1]
  rw [dropWhile_eq_self_of_head (fun c hc => h2 c (by rwa [List.head?_reverse] at hc))]
  exact List.reverse_reverse l

/-- `trimSpace l` is a prefix of `l.dropWhile isGoSpace`. -/
theorem trimSpace_prefix_dropWhile (l : List Char) :
    trimSpace l <+: l.dropWhile isGoSpace := by
  unfold trimSpace
  rw [← List.reverse_suffix]
  simp only [List.reverse_reverse]
  exact List.dropWhile_suffix isGoSpace

theorem trimSpace_within (l : List Char) : trimSpace l <:+: l :=
  ((trimSpace_prefix_dropWhile l).isInfix).trans (List.dropWhile_suffix isGoSpace).isInfix

theorem mem_trimSpace {l : List Char} {c : Char} (h : c ∈ trimSpace l) : c ∈ l :=
  ((trimSpace_within l).sublist).mem h

/-! ## Claim C6: header parsing -/

/-- For C6, phrased from the spec's words for the Header Parser (§4.2):
    split on the first opening brace (the text before it is the header),
    `EmptyInput` when the input or the trimmed header is empty,
    `MalformedHeader` when the trimmed header does not start with `@`,
    otherwise the trimmed header with the leading `@` stripped. -/
def headerSpec (s : List Char) : Except BibErr (List Char) :=
  if s = [] then .error errTheStringIsEmpty
  else
    match trimSpace (s.takeWhile (fun c => c ≠ '{')) with
    | [] => .error errTheStringIsEmpty
    | c :: rest => if c = '@' then .ok rest else .error (errCannotParseEntryType s)

theorem goSplitBrace_ne_nil (l : List Char) : goSplitBrace l ≠ [] := by
  cases l with
  | nil => simp [goSplitBrace]
  | cons c rest =>
    unfold goSplitBrace
    by_cases h : c = '{'
    · simp [h]
    · simp only [if_neg h]
      cases goSplitBrace rest <;> simp

theorem goSplitBrace_head (l : List Char) :
    (goSplitBrace l).head? = some (l.takeWhile (fun c => c ≠ '{')) := by
  induction l with
  | nil => rfl
  | cons c rest ih =>
    unfold goSplitBrace
    by_cases h : c = '{'
    · subst h
      simp [List.takeWhile_cons]
    · simp only [if_neg h]
      rcases hg : goSplitBrace rest with _ | ⟨p, ps⟩
      · exact absurd hg (goSplitBrace_ne_nil rest)
      · rw [hg] at ih
        simp only [List.head?_cons, Option.some.injEq] at ih
        simp [List.takeWhile_cons, h, ih]

/-- **C6** (confirmed).  Header parsing splits its input on the first
    opening brace, fails with `EmptyInput` (`ErrEmptyString "The string is
    empty."`) when the input or the trimmed header is empty, fails with
    `MalformedHeader` (`ErrParsingEntry "Cannot parse entry type …"`) when
    the trimmed header's first character is not `@`, and on success
    returns the trimmed header with the leading `@` stripped, preserving
    case. -/
theorem parseEntryType_of_ne_nil {s : List Char} (hs : s ≠ []) :
    parseEntryType s =
      match trimSpace (s.takeWhile (fun c => c ≠ '{')) with
      | [] => .error errTheStringIsEmpty
      | c :: rest => if c ≠ '@' then .error (errCannotParseEntryType s) else .ok rest := by
  unfold parseEntryType
  rw [if_neg (by simpa using hs), goSplitBrace_head s]

theorem C6_parseEntryType_spec (s : List Char) : parseEntryType s = headerSpec s := by
  by_cases hs : s = []
  · simp [hs, parseEntryType, headerSpec]
  · rw [parseEntryType_of_ne_nil hs]
    unfold headerSpec
    rw [if_neg hs]
    cases h : trimSpace (s.takeWhile fun c => c ≠ '{') with
    | nil => rfl
    | cons c rest => by_cases hc : c = '@' <;> simp [hc]

/-- **C9** (confirmed).  On input without any opening brace, header
    parsing succeeds whenever the trimmed text starts with `@`, returning
    everything after the `@`. -/
theorem C9_no_brace_header (s : List Char) (rest : List Char)
    (h1 : '{' ∉ s) (h2 : trimSpace s = '@' :: rest) :
    parseEntryType s = .ok rest := by
  have hs : s ≠ [] := by
    intro h
    rw [h, trimSpace_nil] at h2
    exact List.noConfusion h2
  have htake : s.takeWhile (fun c => c ≠ '{') = s :=
    List.takeWhile_eq_self_iff.mpr fun x hx => by
      simp only [decide_eq_true_eq]
      exact fun he => h1 (he ▸ hx)
  unfold parseEntryType
  rw [if_neg (by simpa using hs), goSplitBrace_head s, htake]
  simp [h2]

/-- Witness for C9 at the concrete input `"@article"`. -/
theorem C9_no_brace_header_witness :
    parseEntryType (("@article").data) = .ok (("article").data) :=
  C9_no_brace_header (("@article").data) (("article").data) (by decide) (by decide)

/-! ## Claim C2: one layer of delimiters removed, inner content verbatim -/

/-- The example entry of the spec (§8) and of claim C2. -/
def schmidtEntry : List Char :=
  ("@book\x7bschmidt2024,author = \x7bSchmidt, Anna and Müller, Bernd and \x7bO\x27Connor\x7d, Claire and García, Diego\x7d,language = \x22Deutsch\x22\x7d").data

/-- The expected author value: inner braces around O'Connor untouched. -/
def schmidtAuthor : List Char :=
  ("Schmidt, Anna and Müller, Bernd and \x7bO\x27Connor\x7d, Claire and García, Diego").data

theorem dropLast_append_getLast {α : Type} {l : List α} {b : α}
    (h : l.getLast? = some b) : l.dropLast ++ [b] = l := by
  cases l with
  | nil => simp at h
  | cons a t =>
    have hne : a :: t ≠ [] := by simp
    rw [List.getLast?_eq_getLast _ hne] at h
    simp only [Option.some.injEq] at h
    rw [← h]
    exact List.dropLast_append_getLast hne

/-- **C2** (confirmed).  (1) Whenever the value-cleaning step of field
    extraction produces a value `w`, the trimmed, comma-stripped value
    text was exactly `w` wrapped in one matching delimiter pair (`"w"` or
    `\x7bw\x7d`), so exactly one outer layer is removed and everything
    inside — including inner braces and quotes — is preserved verbatim.
    (2) Field extraction on the schmidt2024 book entry yields exactly the
    two-entry mapping, with the inner braces around O'Connor untouched. -/
theorem C2_unwrap_one_layer :
    (∀ raw w, cleanFieldValue raw = .val w →
      ∃ a b, ((a = '"' ∧ b = '"') ∨ (a = '{' ∧ b = '}')) ∧
        stripTrailComma (trimSpace raw) = a :: (w ++ [b]))
    ∧ parseFields schmidtEntry =
        .ok [((("author").data), schmidtAuthor), ((("language").data), (("Deutsch").data))] := by
  constructor
  · intro raw w h
    unfold cleanFieldValue at h
    by_cases hv : (trimSpace raw).isEmpty
    · rw [if_pos hv] at h
      exact absurd h (by simp)
    · rw [if_neg hv] at h
      cases h2 : stripTrailComma (trimSpace raw) with
      | nil =>
        rw [h2] at h
        exact absurd h (by simp)
      | cons a rest =>
        rw [h2] at h
        dsimp only at h
        cases h3 : rest.getLast? with
        | none =>
          rw [h3] at h
          by_cases ha : a = '"' <;> simp [ha] at h
        | some b =>
          rw [h3] at h
          dsimp only at h
          by_cases hp : (a = '"' ∧ b = '"') ∨ (a = '{' ∧ b = '}')
          · rw [if_pos hp] at h
            simp only [CFV.val.injEq] at h
            exact ⟨a, b, hp, by rw [← h, dropLast_append_getLast h3]⟩
          · rw [if_neg hp] at h
            exact absurd h (by simp)
  · rfl

/-- Witness for the first part of C2: the author value of the example is
    produced by removing exactly the outer brace pair. -/
theorem C2_unwrap_one_layer_witness :
    ∃ a b, ((a = '"' ∧ b = '"') ∨ (a = '{' ∧ b = '}')) ∧
      stripTrailComma (trimSpace (('{' :: schmidtAuthor) ++ ("\x7d,").data)) =
        a :: (schmidtAuthor ++ [b]) :=
  C2_unwrap_one_layer.1 (('{' :: schmidtAuthor) ++ ("\x7d,").data) schmidtAuthor (by rfl)

/-! ## Claim C7: mismatched delimiters fail with InvalidFieldDelimiter -/

/-- First and last character form a matching `\x22…\x22` or `\x7b…\x7d`
    pair. -/
def isMatchingPair (l : List Char) : Bool :=
  match l.head?, l.getLast? with
  | some a, some b => (a = '"' && b = '"') || (a = '{' && b = '}')
  | _, _ => false

/-- **C7** (confirmed).  (1) A field value whose text trims to something
    non-empty and whose first and last characters (after stripping one
    trailing comma) do not form a matching delimiter pair makes the
    value-cleaning step fail with `InvalidFieldDelimiter` (carrying the
    trimmed value).  (2) This error propagates out of `parseFields`: the
    entry `@a\x7bx = \x7bv\x22\x7d` fails with it. -/
theorem C7_invalid_field_delimiter :
    (∀ raw, trimSpace raw ≠ [] →
      stripTrailComma (trimSpace raw) ≠ [] →
      isMatchingPair (stripTrailComma (trimSpace raw)) = false →
      cleanFieldValue raw = .errDelim (trimSpace raw))
    ∧ parseFields (("@a\x7bx = \x7bv\x22\x7d").data) =
        .err (errDelimMsg (("\x7bv\x22").data)) := by
  constructor
  · intro raw h1 h2 h3
    unfold cleanFieldValue
    rw [if_neg (by simpa using h1)]
    cases hs : stripTrailComma (trimSpace raw) with
    | nil => exact absurd hs h2
    | cons a rest =>
      rw [hs] at h3
      dsimp only
      cases h4 : rest.getLast? with
      | none =>
        have hrest : rest = [] := List.getLast?_eq_none_iff.mp h4
        subst hrest
        unfold isMatchingPair at h3
        simp only [List.head?_cons, List.getLast?_singleton] at h3
        have ha : a ≠ '"' := by
          intro hq
          subst hq
          simp at h3
        rw [if_neg ha]
      | some b =>
        unfold isMatchingPair at h3
        rw [List.head?_cons] at h3
        have hlast : (a :: rest).getLast? = some b := by
          cases rest with
          | nil => simp at h4
          | cons x t => rw [List.getLast?_cons_cons]; exact h4
        rw [hlast] at h3
        dsimp only
        rw [if_neg ?_]
        simp only [Bool.or_eq_false_iff, Bool.and_eq_false_iff] at h3
        intro hc
        rcases hc with ⟨ha, hb⟩ | ⟨ha, hb⟩
        · rcases h3.1 with h | h <;> simp [ha, hb] at h
        · rcases h3.2 with h | h <;> simp [ha, hb] at h
  · rfl

/-- Witness for C7 at the concrete (mismatched) value `\x7bv\x22`. -/
theorem C7_invalid_field_delimiter_witness :
    cleanFieldValue (("\x7bv\x22").data) = .errDelim (("\x7bv\x22").data) :=
  C7_invalid_field_delimiter.1 (("\x7bv\x22").data) (by decide) (by decide) (by decide)

/-! ## Claim C8: field-map keys are lower-case and contain no `=` -/

theorem toLower_toNat_ofNat {n : Nat} (h1 : 65 ≤ n) (h2 : n ≤ 90) :
    (Char.ofNat (n + 32)).toNat = n + 32 := by
  have hv : Nat.isValidChar (n + 32) := Or.inl (by omega)
  simp only [Char.ofNat, hv, dif_pos]
  rfl

theorem toLower_toLower (c : Char) : Char.toLower (Char.toLower c) = Char.toLower c := by
  simp only [Char.toLower]
  split
  · next h =>
    rw [if_neg]
    rw [toLower_toNat_ofNat h.1 h.2]
    omega
  · rfl

theorem toLower_eq_eq {c : Char} (h : Char.toLower c = '=') : c = '=' := by
  by_cases hc : 65 ≤ c.toNat ∧ c.toNat ≤ 90
  · exfalso
    have he := congrArg Char.toNat h
    rw [Char.toLower, if_pos hc, toLower_toNat_ofNat hc.1 hc.2,
      show ('=').toNat = 61 from rfl] at he
    omega
  · rwa [Char.toLower, if_neg hc] at h

/-- A key as `parseFields` produces them: fixed by lower-casing, no `=`. -/
def goodKey (k : List Char) : Prop := k.map Char.toLower = k ∧ '=' ∉ k

theorem goodKey_cleanFieldName (n : List Char) : goodKey (cleanFieldName n) := by
  unfold cleanFieldName goodKey
  constructor
  · rw [List.map_map]
    congr 1
    funext c
    exact toLower_toLower c
  · intro hmem
    rw [List.mem_map] at hmem
    obtain ⟨c, hc, hlc⟩ := hmem
    have hce : c = '=' := toLower_eq_eq hlc
    subst hce
    have := mem_trimSpace hc
    rw [List.mem_filter] at this
    simp at this

theorem mem_mapInsert {k v : List Char} {m : FieldMap} {kv : List Char × List Char}
    (h : kv ∈ mapInsert k v m) : kv.1 = k ∨ ∃ v', (kv.1, v') ∈ m := by
  unfold mapInsert at h
  split at h
  · rw [List.mem_map] at h
    obtain ⟨p, hp, he⟩ := h
    by_cases hpk : p.1 = k
    · rw [if_pos hpk] at he
      left
      rw [← he]
    · rw [if_neg hpk] at he
      right
      exact ⟨p.2, by rw [← he]; exact hp⟩
  · rw [List.mem_append] at h
    rcases h with h | h
    · exact Or.inr ⟨kv.2, by exact h⟩
    · simp only [List.mem_singleton] at h
      left
      rw [h]

theorem fieldsLoop_goodKeys :
    ∀ (toks : List (List Char × Char × List Char)) (prev vtext : List Char)
      (acc : FieldMap) (m : FieldMap),
      (∀ kv ∈ acc, goodKey kv.1) → (prev ≠ [] → goodKey prev) →
      fieldsLoop toks prev vtext acc = .ok m → ∀ kv ∈ m, goodKey kv.1 := by
  intro toks
  induction toks with
  | nil =>
    intro prev vtext acc m hacc hprev h kv hkv
    unfold fieldsLoop at h
    by_cases h1 : vtext.isEmpty
    · rw [if_pos h1] at h
      injection h with h
      exact hacc kv (h ▸ hkv)
    · rw [if_neg h1] at h
      by_cases h2 : prev.isEmpty
      · rw [if_pos h2] at h
        injection h with h
        exact hacc kv (h ▸ hkv)
      · rw [if_neg h2] at h
        have hpg : goodKey prev := hprev (by simpa using h2)
        cases hc : cleanFieldValue vtext with
        | val w =>
          rw [hc] at h
          dsimp only at h
          injection h with h
          subst h
          rcases mem_mapInsert hkv with he | ⟨v', hv'⟩
          · exact he ▸ hpg
          · exact hacc (kv.1, v') hv'
        | emptyVal =>
          rw [hc] at h
          dsimp only at h
          injection h with h
          exact hacc kv (h ▸ hkv)
        | errDelim v =>
          rw [hc] at h
          exact absurd h (by simp)
        | goPanic =>
          rw [hc] at h
          exact absurd h (by simp)
  | cons t toks ih =>
    obtain ⟨np, d, gap⟩ := t
    intro prev vtext acc m hacc hprev h kv hkv
    unfold fieldsLoop at h
    by_cases hg : !vtext.isEmpty && !prev.isEmpty
    · rw [if_pos hg] at h
      have hpg : goodKey prev := by
        apply hprev
        simp only [Bool.and_eq_true, Bool.not_eq_true'] at hg
        simpa using hg.2
      cases hc : cleanFieldValue vtext with
      | val w =>
        rw [hc] at h
        dsimp only at h
        have hacc2g : ∀ kv2 ∈ mapInsert prev w acc, goodKey kv2.1 := by
          intro kv2 hkv2
          rcases mem_mapInsert hkv2 with he | ⟨v', hv'⟩
          · exact he ▸ hpg
          · exact hacc (kv2.1, v') hv'
        by_cases hn : (cleanFieldName np).isEmpty
        · rw [if_pos hn] at h
          exact ih prev _ _ m hacc2g hprev h kv hkv
        · rw [if_neg hn] at h
          refine ih _ _ _ m ?_ (fun _ => goodKey_cleanFieldName np) h kv hkv
          intro kv2 hkv2
          rcases mem_mapInsert hkv2 with he | ⟨v', hv'⟩
          · exact he ▸ goodKey_cleanFieldName np
          · exact hacc2g (kv2.1, v') hv'
      | emptyVal =>
        rw [hc] at h
        dsimp only at h
        exact ih prev _ acc m hacc hprev h kv hkv
      | errDelim v =>
        rw [hc] at h
        exact absurd h (by simp)
      | goPanic =>
        rw [hc] at h
        exact absurd h (by simp)
    · rw [if_neg hg] at h
      dsimp only at h
      by_cases hn : (cleanFieldName np).isEmpty
      · rw [if_pos hn] at h
        exact ih prev _ acc m hacc hprev h kv hkv
      · rw [if_neg hn] at h
        refine ih _ _ _ m ?_ (fun _ => goodKey_cleanFieldName np) h kv hkv
        intro kv2 hkv2
        rcases mem_mapInsert hkv2 with he | ⟨v', hv'⟩
        · exact he ▸ goodKey_cleanFieldName np
        · exact hacc (kv2.1, v') hv'

/-- **C8** (confirmed).  Whenever field extraction succeeds, every key of
    the resulting mapping is lower-case (fixed by lower-casing) and
    contains no `=` character. -/
theorem C8_keys_lowercase_no_eq (s : List Char) (m : FieldMap)
    (kv : List Char × List Char) (h1 : parseFields s = .ok m) (h2 : kv ∈ m) :
    kv.1.map Char.toLower = kv.1 ∧ '=' ∉ kv.1 := by
  unfold parseFields at h1
  cases hcut : cutBrace s with
  | none =>
    rw [hcut] at h1
    exact absurd h1 (by simp)
  | some p =>
    obtain ⟨b, after⟩ := p
    rw [hcut] at h1
    dsimp only at h1
    cases hlast : (trimSpace after).getLast? with
    | none =>
      rw [hlast] at h1
      exact absurd h1 (by simp)
    | some c =>
      rw [hlast] at h1
      dsimp only at h1
      by_cases hc : c = '}'
      · rw [if_neg (by simpa using hc)] at h1
        exact fieldsLoop_goodKeys _ _ _ _ m (by simp) (fun hp => absurd rfl hp) h1 kv h2
      · rw [if_pos (by simpa using hc)] at h1
        exact absurd h1 (by simp)

/-- Witness for C8: the `author` key of the example entry. -/
theorem C8_keys_lowercase_no_eq_witness :
    (("author").data).map Char.toLower = ("author").data ∧ '=' ∉ ("author").data :=
  C8_keys_lowercase_no_eq schmidtEntry
    [((("author").data), schmidtAuthor), ((("language").data), (("Deutsch").data))]
    ((("author").data), schmidtAuthor) (by rfl) (List.mem_cons_self _ _)

/-! ## Claim C10: a field name with a missing value -/

theorem mem_of_getLast? {α : Type} {l : List α} {b : α} (h : l.getLast? = some b) :
    b ∈ l := by
  cases l with
  | nil => simp at h
  | cons a t =>
    rw [List.getLast?_eq_getLast _ (by simp)] at h
    simp only [Option.some.injEq] at h
    exact h ▸ List.getLast_mem _

theorem letter_not_goSpace {c : Char} (h : isAsciiLetter c = true) :
    isGoSpace c = false := by
  simp only [isAsciiLetter, Bool.or_eq_true, Bool.and_eq_true, decide_eq_true_eq] at h
  simp only [isGoSpace, Bool.or_eq_false_iff, Bool.and_eq_false_iff,
    decide_eq_false_iff_not]
  omega

theorem letter_isClassChar {c : Char} (h : isAsciiLetter c = true) :
    isClassChar c = true := by
  simp [isClassChar, h]

theorem letter_ne_eq {c : Char} (h : isAsciiLetter c = true) : c ≠ '=' := by
  intro he
  subst he
  simp [isAsciiLetter] at h

/-- `strings.Cut` around an explicitly placed first brace. -/
theorem cutBrace_append {hdr rest : List Char} (h : '{' ∉ hdr) :
    cutBrace (hdr ++ '{' :: rest) = some (hdr, rest) := by
  induction hdr with
  | nil => simp [cutBrace]
  | cons c t ih =>
    have hc : c ≠ '{' := fun he => h (he ▸ List.mem_cons_self c t)
    have ht : '{' ∉ t := fun hm => h (List.mem_cons_of_mem c hm)
    rw [List.cons_append]
    unfold cutBrace
    rw [if_neg hc, ih ht]

theorem scanFieldsF_nil (fuel : Nat) : scanFieldsF fuel ([]) = ([], []) := by
  cases fuel <;> rfl

/-- `trimSpace` fixes a list whose first and last characters are letters
    or other non-space characters. -/
theorem trimSpace_eq_self_of_letters {nm sfx : List Char} (h1 : nm ≠ [])
    (h2 : ∀ c ∈ nm, isAsciiLetter c = true) (h3 : sfx ≠ [])
    (h4 : ∀ c, sfx.getLast? = some c → isGoSpace c = false) :
    trimSpace (nm ++ sfx) = nm ++ sfx := by
  apply trimSpace_eq_self
  · intro c hc
    rw [List.head?_append_of_ne_nil nm h1] at hc
    cases nm with
    | nil => exact absurd rfl h1
    | cons a t =>
      simp only [List.head?_cons, Option.some.injEq] at hc
      exact letter_not_goSpace (h2 c (hc ▸ List.mem_cons_self a t))
  · intro c hc
    rw [List.getLast?_append_of_ne_nil nm h3] at hc
    exact h4 c hc

/-- `trimSpace` of a non-empty space-free-edged list followed by
    whitespace gives back the list. -/
theorem trimSpace_append_ws {l w : List Char} (hne : l ≠ [])
    (hw : ∀ c ∈ w, isGoSpace c = true)
    (hh : ∀ c, l.head? = some c → isGoSpace c = false)
    (hl : ∀ c, l.getLast? = some c → isGoSpace c = false) :
    trimSpace (l ++ w) = l := by
  unfold trimSpace
  have h1s : List.dropWhile isGoSpace (l ++ w) = l ++ w :=
    dropWhile_eq_self_of_head (fun c hc => by
      rw [List.head?_append_of_ne_nil l hne] at hc
      exact hh c hc)
  rw [h1s, List.reverse_append]
  have h2s : List.dropWhile isGoSpace (w.reverse ++ l.reverse) =
      List.dropWhile isGoSpace l.reverse :=
    dropWhile_append_all (fun a ha => hw a (List.mem_reverse.mp ha))
  rw [h2s]
  have h3s : List.dropWhile isGoSpace l.reverse = l.reverse :=
    dropWhile_eq_self_of_head (fun c hc => by
      rw [List.head?_reverse] at hc
      exact hl c hc)
  rw [h3s]
  exact List.reverse_reverse l

/-- **C10** (corrected).  A field name matched at the very end of the
    body, with nothing after its opening `\x7b`, does *not* survive in
    the mapping with an empty value: the dangling `\x7b` becomes the
    trailing value text, fails the matching-pair check, and the whole
    field extraction returns `InvalidFieldDelimiter` (the Go map that
    held the name with value `""` is discarded — `parseFields` returns a
    nil map and the error). -/
theorem C10_trailing_name_errs (nm : List Char) (h1 : nm ≠ [])
    (h2 : ∀ c ∈ nm, isAsciiLetter c = true) :
    parseFields (("@t\x7b").data ++ (nm ++ (" = \x7b\x7d").data)) =
      .err (errDelimMsg (['{'])) := by
  obtain ⟨a, t, hnm⟩ : ∃ a t, nm = a :: t := by
    cases nm with
    | nil => exact absurd rfl h1
    | cons a t => exact ⟨a, t, rfl⟩
  have hcut : cutBrace (("@t\x7b").data ++ (nm ++ (" = \x7b\x7d").data)) =
      some (("@t").data, nm ++ (" = \x7b\x7d").data) := by
    rw [show ("@t\x7b").data ++ (nm ++ (" = \x7b\x7d").data)
        = ("@t").data ++ '{' :: (nm ++ (" = \x7b\x7d").data) from rfl]
    exact cutBrace_append (by decide)
  unfold parseFields
  rw [hcut]
  dsimp only
  have htrim : trimSpace (nm ++ (" = \x7b\x7d").data) = nm ++ (" = \x7b\x7d").data :=
    trimSpace_eq_self_of_letters h1 h2 (by decide) (by decide)
  rw [htrim]
  rw [show nm ++ (" = \x7b\x7d").data = (nm ++ (" = \x7b").data) ++ ['}'] from by simp]
  rw [List.getLast?_concat, List.dropLast_concat]
  dsimp only
  rw [if_neg (by simp)]
  have hclass : ∀ c ∈ nm, isClassChar c = true := fun c hc => letter_isClassChar (h2 c hc)
  have hmatch : tryFieldMatch (nm ++ (" = \x7b").data) =
      some (nm ++ (" = ").data, '{', []) := by
    unfold tryFieldMatch
    rw [takeWhile_append_all hclass, dropWhile_append_all hclass]
    rw [show ((" = \x7b").data).takeWhile isClassChar = [' '] from by decide]
    rw [show ((" = \x7b").data).dropWhile isClassChar = '=' :: [' ', '{'] from by decide]
    rw [if_neg (by simp)]
    dsimp only
    rw [if_pos rfl]
    rw [show ([' ', '{'] : List Char).takeWhile isRegexWs = [' '] from by decide]
    rw [show ([' ', '{'] : List Char).dropWhile isRegexWs = ['{'] from by decide]
    rw [show (['{'] : List Char).takeWhile isDelimChar = ['{'] from by decide]
    rw [show (['{'] : List Char).dropWhile isDelimChar = [] from by decide]
    rw [show (['{'] : List Char).getLast? = some '{' from rfl]
    dsimp only
    rw [show (['{'] : List Char).dropLast = [] from rfl]
    rw [List.append_assoc]
    rw [show ([' '] : List Char) ++ '=' :: ([' '] ++ []) = (" = ").data from by decide]
  have hscan : scanFields (nm ++ (" = \x7b").data) =
      ([], [(nm ++ (" = ").data, '{', [])]) := by
    unfold scanFields
    rw [hnm]
    simp only [List.cons_append, List.length_cons]
    rw [scanFieldsF]
    rw [← List.cons_append, ← hnm, hmatch]
    dsimp only
    rw [scanFieldsF_nil]
    simp [hnm]
  rw [hscan]
  dsimp only
  unfold fieldsLoop
  rw [if_neg (by simp)]
  dsimp only
  have hname : cleanFieldName (nm ++ (" = ").data) = nm.map Char.toLower := by
    unfold cleanFieldName
    rw [List.filter_append]
    have h5 : ∀ c ∈ nm, (fun c => decide (c ≠ '=')) c = true := by
      intro c hc
      simpa using letter_ne_eq (h2 c hc)
    rw [List.filter_eq_self.mpr h5]
    rw [show ((" = ").data).filter (fun c => decide (c ≠ '=')) = [' '] ++ [' '] from by decide]
    have h7 : trimSpace (nm ++ ([' '] ++ [' '])) = nm := by
      have hw : ∀ c ∈ (([' '] ++ [' ']) : List Char), isGoSpace c = true := by decide
      refine trimSpace_append_ws h1 hw ?_ ?_
      · intro c hc
        rw [hnm, List.head?_cons] at hc
        simp only [Option.some.injEq] at hc
        rw [← hc]
        exact letter_not_goSpace (h2 a (by rw [hnm]; exact List.mem_cons_self a t))
      · intro c hc
        exact letter_not_goSpace (h2 c (mem_of_getLast? hc))
    rw [h7]
  rw [hname]
  have hmap_ne : ¬((nm.map Char.toLower).isEmpty = true) := by
    simp [List.isEmpty_iff, h1]
  rw [if_neg hmap_ne]
  unfold fieldsLoop
  rw [if_neg (by decide), if_neg hmap_ne]
  rw [show cleanFieldValue (['{'] : List Char) = .errDelim (['{']) from by decide]

/-- The claim C10 predicts that `@t\x7bname = \x7b\x7d` parses with the
    field `name` present with value `""` and no delimiter error; the code
    instead fails with `InvalidFieldDelimiter` and discards the map. -/
theorem C10_counterexample :
    parseFields (("@t\x7bname = \x7b\x7d").data) = .err (errDelimMsg (['{'])) := by
  rfl

/-- Witness for C10 at the field name `date`. -/
theorem C10_trailing_name_errs_witness :
    parseFields (("@t\x7b").data ++ ((("date").data) ++ (" = \x7b\x7d").data)) =
      .err (errDelimMsg (['{'])) :=
  C10_trailing_name_errs (("date").data) (by decide) (by decide)

/-! ## Claim C1: composition behaviour of ParseNewEntry -/

/-- Entry for C1: field `a` parses fine, field `b` has mismatched
    delimiters (`\x7b2\x22`). -/
def exEntryC1 : List Char := ("@art\x7bk,a = \x7b1\x7d,b = \x7b2\x22\x7d").data

/-- A well-formed entry on which every stage succeeds. -/
def exEntryOk : List Char := ("@article\x7bid1,author = \x7bT\x7d\x7d").data

/-- **C1** (corrected, counterexample).  On `exEntryC1` field extraction
    fails with `InvalidFieldDelimiter` *after* having parsed field `a`,
    yet `ParseNewEntry` returns the record with `Fields = nil` (the
    partial fields are discarded together with the failing map) and a
    `nil` error — the caller receives neither the partially populated
    field mapping nor the specific error, contradicting the claim. -/
theorem C1_counterexample :
    parseFields (cleanRawEntry exEntryC1) = .err (errDelimMsg (("\x7b2\x22").data)) ∧
    ParseNewEntry exEntryC1 =
      .ret (some ⟨("art").data, ("k").data, exEntryC1, exEntryC1, none⟩) none :=
  ⟨rfl, rfl⟩

/-- **C1** (corrected, amended claim).  When header parsing succeeds (and
    field extraction does not panic), `ParseNewEntry` returns the record
    together with a `nil` error no matter whether field or key extraction
    failed; `Fields` is the `nil` map exactly when `parseFields` errored
    (no partial fields are carried), and `Key` is `""` exactly when
    `parseID` errored — the specific errors are only logged, never
    returned. -/
theorem C1_amended_composition (raw : List Char) (et : List Char)
    (h0 : cleanRawEntry raw ≠ [])
    (h1 : parseEntryType (cleanRawEntry raw) = .ok et)
    (h2 : parseFields (cleanRawEntry raw) ≠ .panics) :
    ParseNewEntry raw = .ret (some
      { entryType := et
        key := match parseID (cleanRawEntry raw) with | .ok k => k | .error _ => []
        rawEntry := raw
        cleanEntry := cleanRawEntry raw
        fields := match parseFields (cleanRawEntry raw) with
          | .ok m => some m
          | _ => none }) none := by
  unfold ParseNewEntry
  rw [if_neg (by simpa using h0), h1]
  dsimp only
  cases hpf : parseFields (cleanRawEntry raw) with
  | ok m => rfl
  | err e => rfl
  | panics => exact absurd hpf h2

/-- Witness for C1's amended claim on a fully successful entry. -/
theorem C1_amended_composition_witness :
    ParseNewEntry exEntryOk =
      .ret (some ⟨("article").data, ("id1").data, exEntryOk, exEntryOk,
        some [((("author").data), ("T").data)]⟩) none :=
  C1_amended_composition exEntryOk (("article").data) (by decide) (by rfl) (by decide)

/-! ## Claim C4: what comment removal deletes -/

/-- Every `%` in the list is immediately preceded by a backslash, where
    `prev` is the character before the list (the sentinel at the very
    start is any non-backslash character). -/
def escapedFrom : Char → List Char → Bool
  | _, [] => true
  | prev, c :: rest => (decide (c ≠ '%') || decide (prev = '\\')) && escapedFrom c rest

/-- The list does not begin with `%` and every `%` in it is immediately
    preceded by a backslash (`'a'` is an arbitrary non-backslash
    sentinel standing for "start of text"). -/
def escapedOnly (l : List Char) : Bool := escapedFrom 'a' l

theorem dropComment_length_le (l : List Char) : (dropComment l).length ≤ l.length :=
  (List.dropWhile_sublist _).length_le

theorem removeCommentsAuxF_congr :
    ∀ f g l, l.length ≤ f → l.length ≤ g →
      removeCommentsAuxF f l = removeCommentsAuxF g l := by
  intro f
  induction f using Nat.strong_induction_on with
  | _ f ihf =>
    intro g l hf hg
    cases l with
    | nil => cases f <;> cases g <;> rfl
    | cons c rest =>
      cases rest with
      | nil =>
        cases f with
        | zero => simp at hf
        | succ f =>
          cases g with
          | zero => simp at hg
          | succ g => rfl
      | cons d rest' =>
        cases f with
        | zero => simp at hf
        | succ f =>
          cases g with
          | zero => simp at hg
          | succ g =>
            simp only [List.length_cons] at hf hg
            simp only [removeCommentsAuxF]
            have hd := dropComment_length_le rest'
            by_cases hcd : c ≠ '\\' ∧ d = '%'
            · rw [if_pos hcd, if_pos hcd]
              exact ihf f (by omega) g _ (by omega) (by omega)
            · rw [if_neg hcd, if_neg hcd]
              congr 1
              exact ihf f (by omega) g _ (by simp only [List.length_cons]; omega)
                (by simp only [List.length_cons]; omega)

theorem removeCommentsAux_cons₂ (c d : Char) (rest : List Char) :
    removeCommentsAux (c :: d :: rest) =
      if c ≠ '\\' ∧ d = '%' then removeCommentsAux (dropComment rest)
      else c :: removeCommentsAux (d :: rest) := by
  unfold removeCommentsAux
  have hd := dropComment_length_le rest
  rw [show (c :: d :: rest).length = (rest.length + 1) + 1 from by simp]
  simp only [removeCommentsAuxF]
  by_cases hcd : c ≠ '\\' ∧ d = '%'
  · rw [if_pos hcd, if_pos hcd]
    exact removeCommentsAuxF_congr _ _ _ (by omega) (le_refl _)
  · rw [if_neg hcd, if_neg hcd]
    rfl

theorem removeCommentsAux_escaped (l : List Char) :
    ∀ prev, escapedFrom prev l = true → removeCommentsAux l = l := by
  induction l with
  | nil => intro prev _; rfl
  | cons c rest ih =>
    intro prev h
    cases rest with
    | nil => rfl
    | cons d rest' =>
      simp only [escapedFrom, Bool.and_eq_true, Bool.or_eq_true,
        decide_eq_true_eq] at h
      obtain ⟨h1, h2, h3⟩ := h
      have hnomatch : ¬(c ≠ '\\' ∧ d = '%') := by
        intro hcd
        rcases h2 with hne | hbs
        · exact hne hcd.2
        · exact hcd.1 hbs
      rw [removeCommentsAux_cons₂, if_neg hnomatch]
      have hrec : escapedFrom c (d :: rest') = true := by
        simp only [escapedFrom, Bool.and_eq_true, Bool.or_eq_true,
          decide_eq_true_eq]
        exact ⟨h2, h3⟩
      rw [ih c hrec]

theorem removeComments_of_head_ne {c : Char} {rest : List Char} (h : c ≠ '%') :
    removeComments (c :: rest) = removeCommentsAux (c :: rest) := by
  show (if c = '%' then removeCommentsAux (dropComment rest)
    else removeCommentsAux (c :: rest)) = removeCommentsAux (c :: rest)
  rw [if_neg h]

theorem removeComments_head_pct (rest : List Char) :
    removeComments ('%' :: rest) = removeCommentsAux (dropComment rest) := rfl

/-- A list that may legally follow a comment: empty, or starting with a
    line break. -/
def commentStop (post : List Char) : Prop :=
  post = [] ∨ (∃ p, post = '\n' :: p) ∨ (∃ p, post = '\r' :: p)

theorem dropComment_append {com post : List Char}
    (hcom : ∀ x ∈ com, x ≠ '\n' ∧ x ≠ '\r') (hpost : commentStop post) :
    dropComment (com ++ post) = post := by
  unfold dropComment
  rw [dropWhile_append_all (fun x hx => by
    obtain ⟨hn, hr⟩ := hcom x hx
    simp [hn, hr])]
  apply dropWhile_eq_self_of_head
  intro c hc
  rcases hpost with h | ⟨p, h⟩ | ⟨p, h⟩ <;> subst h
  · simp at hc
  · simp only [List.head?_cons, Option.some.injEq] at hc
    simp [← hc]
  · simp only [List.head?_cons, Option.some.injEq] at hc
    simp [← hc]

theorem removeComments_of_stop (post : List Char) (hpost : commentStop post) :
    removeCommentsAux post = removeComments post := by
  rcases hpost with h | ⟨p, h⟩ | ⟨p, h⟩ <;> subst h
  · rfl
  · rw [removeComments_of_head_ne (by decide)]
  · rw [removeComments_of_head_ne (by decide)]

/-- A text in which every `%` is backslash-escaped is left unchanged by
    comment removal. -/
theorem removeComments_escaped (s : List Char) (h : escapedOnly s = true) :
    removeComments s = s := by
  cases s with
  | nil => rfl
  | cons c rest =>
    unfold escapedOnly escapedFrom at h
    simp only [Bool.and_eq_true, Bool.or_eq_true, decide_eq_true_eq] at h
    have hc : c ≠ '%' := by
      rcases h.1 with h1 | h1
      · exact h1
      · exact absurd h1 (by decide)
    rw [removeComments_of_head_ne hc]
    exact removeCommentsAux_escaped _ c (by
      simp only [escapedFrom, Bool.and_eq_true, Bool.or_eq_true, decide_eq_true_eq]
      exact ⟨Or.inl hc, h.2⟩)

/-- **C4** (corrected, amended claim).  Comment removal deletes, for each
    unescaped comment, the `%`, the rest of its physical line, *and the
    single non-backslash character immediately preceding the `%`* (that
    character is part of the regexp match `(^|[^\\])%[^\n\r]*` and is
    replaced together with it); a comment at the very start of the text
    loses only the `%` and the line tail; an escaped `\%` is preserved
    literally (a text all of whose `%` are backslash-escaped is left
    unchanged). -/
theorem C4_comment_removal :
    (∀ pre c com post, '%' ∉ pre → c ≠ '\\' → c ≠ '%' →
      (∀ x ∈ com, x ≠ '\n' ∧ x ≠ '\r') → commentStop post →
      removeComments (pre ++ c :: '%' :: (com ++ post)) = pre ++ removeComments post)
    ∧ (∀ com post, (∀ x ∈ com, x ≠ '\n' ∧ x ≠ '\r') → commentStop post →
      removeComments ('%' :: (com ++ post)) = removeComments post)
    ∧ (∀ s, escapedOnly s = true → removeComments s = s) := by
  refine ⟨?_, ?_, ?_⟩
  · have aux : ∀ (pre : List Char) c com post, '%' ∉ pre → c ≠ '\\' → c ≠ '%' →
        (∀ x ∈ com, x ≠ '\n' ∧ x ≠ '\r') → commentStop post →
        removeCommentsAux (pre ++ c :: '%' :: (com ++ post)) =
          pre ++ removeCommentsAux post := by
      intro pre
      induction pre with
      | nil =>
        intro c com post _ hc1 _ hcom hpost
        simp only [List.nil_append]
        rw [removeCommentsAux_cons₂, if_pos ⟨hc1, rfl⟩, dropComment_append hcom hpost]
      | cons p pre' ih =>
        intro c com post hpre hc1 hc2 hcom hpost
        have hp' : '%' ∉ pre' := fun hm => hpre (List.mem_cons_of_mem p hm)
        cases pre' with
        | nil =>
          simp only [List.cons_append, List.nil_append]
          rw [removeCommentsAux_cons₂, if_neg (fun hcd => hc2 hcd.2)]
          have := ih c com post hp' hc1 hc2 hcom hpost
          simp only [List.nil_append] at this
          rw [this]
        | cons q pre'' =>
          have hq : q ≠ '%' := fun he => hpre (by
            rw [he] at *
            exact List.mem_cons_of_mem p (List.mem_cons_self _ _))
          simp only [List.cons_append]
          rw [removeCommentsAux_cons₂, if_neg (fun hcd => hq hcd.2)]
          have := ih c com post hp' hc1 hc2 hcom hpost
          simp only [List.cons_append] at this
          rw [this]
    intro pre c com post hpre hc1 hc2 hcom hpost
    have hA := aux pre c com post hpre hc1 hc2 hcom hpost
    rw [removeComments_of_stop post hpost] at hA
    cases pre with
    | nil =>
      simp only [List.nil_append] at hA ⊢
      rw [removeComments_of_head_ne hc2]
      exact hA
    | cons p pre' =>
      have hp : p ≠ '%' := fun he => hpre (he ▸ List.mem_cons_self _ _)
      rw [show (p :: pre') ++ c :: '%' :: (com ++ post)
          = p :: (pre' ++ c :: '%' :: (com ++ post)) from rfl]
      rw [removeComments_of_head_ne hp]
      exact hA
  · intro com post hcom hpost
    rw [removeComments_head_pct, dropComment_append hcom hpost]
    exact removeComments_of_stop post hpost
  · exact fun s h => removeComments_escaped s h

/-- The claim C4 predicts `cleanRawEntry "ab%c" = "ab"` (comment removed,
    preceding character retained); the code deletes the `b` as well. -/
theorem C4_counterexample :
    cleanRawEntry (("ab%c").data) = ("a").data ∧ ("a").data ≠ ("ab").data :=
  ⟨rfl, by decide⟩

/-- Witness for C4 on `"ab%c\nz"`: the comment match swallows `b`. -/
theorem C4_comment_removal_witness :
    removeComments (("ab%c\nz").data) = ("a").data ++ removeComments (("\nz").data) :=
  C4_comment_removal.1 (("a").data) 'b' (("c").data) (("\nz").data)
    (by decide) (by decide) (by decide) (by decide)
    (Or.inr (Or.inl ⟨(("z").data), rfl⟩))

/-! ## Claim C3: normalization and idempotence — collapseWs machinery -/

theorem collapseWsF_congr :
    ∀ f g l, l.length ≤ f → l.length ≤ g →
      collapseWsF f l = collapseWsF g l := by
  intro f
  induction f using Nat.strong_induction_on with
  | _ f ihf =>
    intro g l hf hg
    cases l with
    | nil => cases f <;> cases g <;> rfl
    | cons c rest =>
      cases rest with
      | nil =>
        cases f with
        | zero => simp at hf
        | succ f =>
          cases g with
          | zero => simp at hg
          | succ g => rfl
      | cons d rest' =>
        cases f with
        | zero => simp at hf
        | succ f =>
          cases g with
          | zero => simp at hg
          | succ g =>
            simp only [List.length_cons] at hf hg
            simp only [collapseWsF]
            have hd : (rest'.dropWhile isRegexWs).length ≤ rest'.length :=
              (List.dropWhile_sublist _).length_le
            by_cases hcd : isRegexWs c = true ∧ isRegexWs d = true
            · rw [if_pos hcd, if_pos hcd]
              congr 1
              exact ihf f (by omega) g _ (by omega) (by omega)
            · rw [if_neg hcd, if_neg hcd]
              congr 1
              exact ihf f (by omega) g _ (by simp only [List.length_cons]; omega)
                (by simp only [List.length_cons]; omega)

theorem collapseWs_cons₂ (c d : Char) (rest : List Char) :
    collapseWs (c :: d :: rest) =
      if isRegexWs c = true ∧ isRegexWs d = true then
        ' ' :: collapseWs (rest.dropWhile isRegexWs)
      else c :: collapseWs (d :: rest) := by
  unfold collapseWs
  have hd : (rest.dropWhile isRegexWs).length ≤ rest.length :=
    (List.dropWhile_sublist _).length_le
  rw [show (c :: d :: rest).length = (rest.length + 1) + 1 from by simp]
  simp only [collapseWsF]
  by_cases hcd : isRegexWs c = true ∧ isRegexWs d = true
  · rw [if_pos hcd, if_pos hcd]
    congr 1
    exact collapseWsF_congr _ _ _ (by omega) (le_refl _)
  · rw [if_neg hcd, if_neg hcd]
    rfl

theorem mem_collapseWs :
    ∀ (n : Nat) (m : List Char), m.length ≤ n →
      ∀ c ∈ collapseWs m, c ∈ m ∨ c = ' ' := by
  intro n
  induction n with
  | zero =>
    intro m hm c hc
    rw [List.length_eq_zero.mp (Nat.le_zero.mp hm)] at hc ⊢
    exact absurd hc (by simp [collapseWs, collapseWsF])
  | succ n ih =>
    intro m hm c hc
    cases m with
    | nil => exact absurd hc (by simp [collapseWs, collapseWsF])
    | cons a rest =>
      cases rest with
      | nil =>
        simp only [show collapseWs [a] = [a] from rfl, List.mem_singleton] at hc
        exact Or.inl (hc ▸ List.mem_cons_self a [])
      | cons b rest' =>
        rw [collapseWs_cons₂] at hc
        simp only [List.length_cons] at hm
        by_cases hab : isRegexWs a = true ∧ isRegexWs b = true
        · rw [if_pos hab] at hc
          rcases List.mem_cons.mp hc with he | hc'
          · exact Or.inr he
          · have hlen : (rest'.dropWhile isRegexWs).length ≤ n := by
              have := (@List.dropWhile_sublist Char rest' isRegexWs).length_le
              omega
            rcases ih _ hlen c hc' with hin | he
            · exact Or.inl (List.mem_cons_of_mem a (List.mem_cons_of_mem b
                ((List.dropWhile_sublist _).mem hin)))
            · exact Or.inr he
        · rw [if_neg hab] at hc
          rcases List.mem_cons.mp hc with he | hc'
          · exact Or.inl (he ▸ List.mem_cons_self a _)
          · have hlen : (b :: rest').length ≤ n := by simp; omega
            rcases ih _ hlen c hc' with hin | he
            · exact Or.inl (List.mem_cons_of_mem a hin)
            · exact Or.inr he

/-- Adjacent regexp-whitespace pairs never survive collapsing. -/
def noDoubleWs (l : List Char) : Prop :=
  l.Chain' (fun a b => ¬(isRegexWs a = true ∧ isRegexWs b = true))

theorem collapseWs_head? (m : List Char) :
    (collapseWs m).head? = m.head? ∨
      ((collapseWs m).head? = some ' ' ∧
        ∃ h, m.head? = some h ∧ isRegexWs h = true) := by
  cases m with
  | nil => exact Or.inl rfl
  | cons c rest =>
    cases rest with
    | nil => exact Or.inl rfl
    | cons d rest' =>
      rw [collapseWs_cons₂]
      by_cases hcd : isRegexWs c = true ∧ isRegexWs d = true
      · rw [if_pos hcd]
        exact Or.inr ⟨rfl, c, rfl, hcd.1⟩
      · rw [if_neg hcd]
        exact Or.inl rfl

theorem noDoubleWs_collapseWs :
    ∀ (n : Nat) (m : List Char), m.length ≤ n → noDoubleWs (collapseWs m) := by
  intro n
  induction n with
  | zero =>
    intro m hm
    rw [List.length_eq_zero.mp (Nat.le_zero.mp hm)]
    exact List.chain'_nil
  | succ n ih =>
    intro m hm
    cases m with
    | nil => exact List.chain'_nil
    | cons a rest =>
      cases rest with
      | nil => exact List.chain'_singleton a
      | cons b rest' =>
        simp only [List.length_cons] at hm
        rw [collapseWs_cons₂]
        by_cases hab : isRegexWs a = true ∧ isRegexWs b = true
        · rw [if_pos hab]
          have hlen : (rest'.dropWhile isRegexWs).length ≤ n := by
            have := (@List.dropWhile_sublist Char rest' isRegexWs).length_le
            omega
          refine List.chain'_cons'.mpr ⟨?_, ih _ hlen⟩
          intro y hy
          rcases collapseWs_head? (rest'.dropWhile isRegexWs) with hh | ⟨hh, z, hz, hzw⟩
          · rw [hh, Option.mem_def] at hy
            have hyf := head?_dropWhile_false hy
            intro hcl
            rw [hyf] at hcl
            exact absurd hcl.2 (by simp)
          · rw [head?_dropWhile_false hz] at hzw
            exact absurd hzw (by simp)
        · rw [if_neg hab]
          have hlen : (b :: rest').length ≤ n := by simp; omega
          refine List.chain'_cons'.mpr ⟨?_, ih _ hlen⟩
          intro y hy
          rcases collapseWs_head? (b :: rest') with hh | ⟨hh, z, hz, hzw⟩
          · rw [hh, Option.mem_def] at hy
            simp only [List.head?_cons, Option.some.injEq] at hy
            intro hcl
            apply hab
            refine ⟨hcl.1, ?_⟩
            rw [hy]
            exact hcl.2
          · simp only [List.head?_cons, Option.some.injEq] at hz
            intro hcl
            apply hab
            refine ⟨hcl.1, ?_⟩
            rw [hz]
            exact hzw

theorem isRegexWs_ne_backslash {c : Char} (h : isRegexWs c = true) : c ≠ '\\' :=
  fun he => absurd (he ▸ h) (by decide)

theorem isGoSpace_ne_backslash {c : Char} (h : isGoSpace c = true) : c ≠ '\\' :=
  fun he => absurd (he ▸ h) (by decide)

/-- The chain condition of `escapedFrom` does not depend on the previous
    character as long as it is not a backslash. -/
theorem escapedFrom_anyPrev {c : Char} {m : List Char} (hc : c ≠ '\\')
    (h : escapedFrom c m = true) (e : Char) : escapedFrom e m = true := by
  cases m with
  | nil => rfl
  | cons d rest =>
    simp only [escapedFrom, Bool.and_eq_true, Bool.or_eq_true,
      decide_eq_true_eq] at h ⊢
    refine ⟨?_, h.2⟩
    rcases h.1 with h1 | h1
    · exact Or.inl h1
    · exact absurd h1 hc

theorem escapedFrom_filter {p : Char → Bool} (hbs : p '\\' = true) :
    ∀ (m : List Char) (prev : Char), escapedFrom prev m = true →
      escapedFrom prev (m.filter p) = true := by
  intro m
  induction m with
  | nil => intro prev _; rfl
  | cons c rest ih =>
    intro prev h
    simp only [escapedFrom, Bool.and_eq_true] at h
    rw [List.filter_cons]
    by_cases hp : p c = true
    · rw [if_pos hp]
      simp only [escapedFrom, Bool.and_eq_true]
      exact ⟨h.1, ih c h.2⟩
    · rw [if_neg hp]
      have hcb : c ≠ '\\' := fun he => hp (he ▸ hbs)
      exact escapedFrom_anyPrev hcb (ih c h.2) prev

theorem escapedFrom_dropWhile {p : Char → Bool} (hp : ∀ x, p x = true → x ≠ '\\') :
    ∀ (m : List Char) (prev : Char), prev ≠ '\\' → escapedFrom prev m = true →
      ∀ e, escapedFrom e (m.dropWhile p) = true := by
  intro m
  induction m with
  | nil => intro prev _ _ e; rfl
  | cons c rest ih =>
    intro prev hprev h e
    rw [List.dropWhile_cons]
    by_cases hpc : p c = true
    · rw [if_pos hpc]
      simp only [escapedFrom, Bool.and_eq_true] at h
      exact ih c (hp c hpc) h.2 e
    · rw [if_neg hpc]
      exact escapedFrom_anyPrev hprev h e

theorem escapedFrom_append_left (v : List Char) :
    ∀ (u : List Char) (prev : Char),
      escapedFrom prev (u ++ v) = true → escapedFrom prev u = true := by
  intro u
  induction u with
  | nil => intro prev _; rfl
  | cons c rest ih =>
    intro prev h
    simp only [List.cons_append, escapedFrom, Bool.and_eq_true] at h ⊢
    exact ⟨h.1, ih c h.2⟩

theorem escapedFrom_collapse :
    ∀ (n : Nat) (m : List Char), m.length ≤ n → ∀ prev,
      escapedFrom prev m = true → escapedFrom prev (collapseWs m) = true := by
  intro n
  induction n with
  | zero =>
    intro m hm prev _
    rw [List.length_eq_zero.mp (Nat.le_zero.mp hm)]
    rfl
  | succ n ih =>
    intro m hm prev h
    cases m with
    | nil => rfl
    | cons a rest =>
      cases rest with
      | nil => exact h
      | cons b rest' =>
        rw [collapseWs_cons₂]
        simp only [List.length_cons] at hm
        simp only [escapedFrom, Bool.and_eq_true, Bool.or_eq_true,
          decide_eq_true_eq] at h
        obtain ⟨h1, h2, h3⟩ := h
        by_cases hab : isRegexWs a = true ∧ isRegexWs b = true
        · rw [if_pos hab]
          simp only [escapedFrom, Bool.and_eq_true, Bool.or_eq_true,
            decide_eq_true_eq]
          refine ⟨Or.inl (by decide), ?_⟩
          have hb : b ≠ '\\' := isRegexWs_ne_backslash hab.2
          have hdw : escapedFrom ' ' (rest'.dropWhile isRegexWs) = true :=
            escapedFrom_dropWhile (fun x hx => isRegexWs_ne_backslash hx)
              rest' b hb h3 ' '
          refine ih _ ?_ ' ' hdw
          have := (@List.dropWhile_sublist Char rest' isRegexWs).length_le
          omega
        · rw [if_neg hab]
          simp only [escapedFrom, Bool.and_eq_true, Bool.or_eq_true,
            decide_eq_true_eq]
          refine ⟨h1, ?_⟩
          refine ih _ (by simp only [List.length_cons]; omega) a ?_
          simp only [escapedFrom, Bool.and_eq_true, Bool.or_eq_true,
            decide_eq_true_eq]
          exact ⟨h2, h3⟩

theorem removeCommentsAux_escapedFrom :
    ∀ (n : Nat) (l : List Char), l.length ≤ n → ∀ prev,
      (l.head? = some '%' → prev = '\\') →
      escapedFrom prev (removeCommentsAux l) = true := by
  intro n
  induction n with
  | zero =>
    intro l hl prev _
    rw [List.length_eq_zero.mp (Nat.le_zero.mp hl)]
    rfl
  | succ n ih =>
    intro l hl prev hcond
    cases l with
    | nil => rfl
    | cons c rest =>
      cases rest with
      | nil =>
        show escapedFrom prev [c] = true
        simp only [escapedFrom, Bool.and_eq_true, Bool.or_eq_true,
          decide_eq_true_eq]
        refine ⟨?_, trivial⟩
        by_cases hc : c = '%'
        · exact Or.inr (hcond (by subst hc; rfl))
        · exact Or.inl hc
      | cons d rest' =>
        rw [removeCommentsAux_cons₂]
        simp only [List.length_cons] at hl
        by_cases hcd : c ≠ '\\' ∧ d = '%'
        · rw [if_pos hcd]
          refine ih _ (le_trans (dropComment_length_le rest') (by omega)) prev ?_
          intro hhd
          unfold dropComment at hhd
          exact absurd (head?_dropWhile_false hhd) (by decide)
        · rw [if_neg hcd]
          simp only [escapedFrom, Bool.and_eq_true, Bool.or_eq_true,
            decide_eq_true_eq]
          constructor
          · by_cases hc : c = '%'
            · exact Or.inr (hcond (by subst hc; rfl))
            · exact Or.inl hc
          · refine ih _ (by simp only [List.length_cons]; omega) c ?_
            intro hd
            simp only [List.head?_cons, Option.some.injEq] at hd
            by_contra hcb
            exact hcd ⟨hcb, hd⟩

/-- After a comment-removal pass, every surviving `%` is escaped. -/
theorem removeComments_escapedOnly (l : List Char) :
    escapedOnly (removeComments l) = true := by
  unfold escapedOnly
  cases l with
  | nil => rfl
  | cons c rest =>
    by_cases hc : c = '%'
    · subst hc
      rw [removeComments_head_pct]
      refine removeCommentsAux_escapedFrom _ _ (le_refl _) 'a' ?_
      intro hhd
      unfold dropComment at hhd
      exact absurd (head?_dropWhile_false hhd) (by decide)
    · rw [removeComments_of_head_ne hc]
      refine removeCommentsAux_escapedFrom _ _ (le_refl _) 'a' ?_
      intro hhd
      simp only [List.head?_cons, Option.some.injEq] at hhd
      exact absurd hhd hc

/-- No line feeds, carriage returns or tabs anywhere in the list. -/
def noNLT (l : List Char) : Prop := ∀ c ∈ l, c ≠ '\n' ∧ c ≠ '\r' ∧ c ≠ '\t'

theorem noNLT_removeNLT (l : List Char) : noNLT (removeNLT l) := by
  intro c hc
  unfold removeNLT at hc
  have hf := List.of_mem_filter hc
  simp only [Bool.not_eq_true', Bool.or_eq_false_iff, decide_eq_false_iff_not] at hf
  exact ⟨hf.1.1, hf.1.2, hf.2⟩

theorem removeNLT_eq_self {l : List Char} (h : noNLT l) : removeNLT l = l :=
  List.filter_eq_self.mpr fun a ha => by
    have h' := h a ha
    simp [h'.1, h'.2.1, h'.2.2]

theorem noNLT_collapseWs {l : List Char} (h : noNLT l) : noNLT (collapseWs l) := by
  intro c hc
  rcases mem_collapseWs l.length l (le_refl _) c hc with hin | he
  · exact h c hin
  · rw [he]
    exact ⟨by decide, by decide, by decide⟩

theorem noNLT_trimSpace {l : List Char} (h : noNLT l) : noNLT (trimSpace l) :=
  fun c hc => h c (mem_trimSpace hc)

theorem noDoubleWs_trimSpace {l : List Char} (h : noDoubleWs l) :
    noDoubleWs (trimSpace l) := h.infix (trimSpace_within l)

theorem collapseWs_eq_self {l : List Char} (h : noDoubleWs l) : collapseWs l = l := by
  induction l with
  | nil => rfl
  | cons a rest ih =>
    cases rest with
    | nil => rfl
    | cons b rest' =>
      rw [collapseWs_cons₂]
      unfold noDoubleWs at h
      rw [List.chain'_cons] at h
      rw [if_neg h.1]
      rw [ih h.2]

theorem escapedOnly_trimSpace {l : List Char} (h : escapedOnly l = true) :
    escapedOnly (trimSpace l) = true := by
  unfold escapedOnly at h ⊢
  have h1 : escapedFrom 'a' (l.dropWhile isGoSpace) = true :=
    escapedFrom_dropWhile (fun x hx => isGoSpace_ne_backslash hx) l 'a'
      (by decide) h 'a'
  obtain ⟨w, hw⟩ := trimSpace_prefix_dropWhile l
  refine escapedFrom_append_left w (trimSpace l) 'a' ?_
  rw [hw]
  exact h1

/-- **C3** (corrected, amended claim).  Normalization is idempotent only
    up to edge whitespace: re-normalizing an already-normalized string
    equals trimming it.  (Removing a comment can leave a leading or
    trailing space that the first pass—whose trim runs before comment
    removal—does not strip; the second pass strips it, so full
    idempotence fails.) -/
theorem C3_clean_idempotent_up_to_trim (s : List Char) :
    cleanRawEntry (cleanRawEntry s) = trimSpace (cleanRawEntry s) := by
  have hesc : escapedOnly (cleanRawEntry s) = true := by
    unfold cleanRawEntry escapedOnly
    refine escapedFrom_collapse _ _ (le_refl _) 'a' ?_
    refine escapedFrom_filter (by decide) _ 'a' ?_
    exact removeComments_escapedOnly (trimSpace s)
  have hnl : noNLT (cleanRawEntry s) := by
    unfold cleanRawEntry
    exact noNLT_collapseWs (noNLT_removeNLT _)
  have hdw : noDoubleWs (cleanRawEntry s) := by
    unfold cleanRawEntry
    exact noDoubleWs_collapseWs _ _ (le_refl _)
  conv_lhs => rw [show cleanRawEntry (cleanRawEntry s)
    = collapseWs (removeNLT (removeComments (trimSpace (cleanRawEntry s)))) from rfl]
  rw [removeComments_escaped _ (escapedOnly_trimSpace hesc)]
  rw [removeNLT_eq_self (noNLT_trimSpace hnl)]
  rw [collapseWs_eq_self (noDoubleWs_trimSpace hdw)]

/-- The claim C3 predicts `cleanRawEntry` is idempotent; on `"a%x\n b"`
    one pass yields `" b"` (the comment match ate `a%x`, leaving a
    leading space that was not trimmed), a second pass yields `"b"`. -/
theorem C3_counterexample :
    cleanRawEntry (cleanRawEntry (("a%x\n b").data)) ≠
      cleanRawEntry (("a%x\n b").data) := by decide

/-! ## Claim C5: position-independent key extraction -/

/-- A body segment that `regexFindID` can match between two commas:
    optional whitespace, a non-empty run of ID characters, optional
    whitespace. -/
def isBareSeg (seg : List Char) : Bool :=
  let r1 := seg.dropWhile isRegexWs
  let ids := r1.takeWhile isIdChar
  !ids.isEmpty && (r1.dropWhile isIdChar).all isRegexWs

/-- The comma-separated body built from its segments. -/
def joinSegs : List (List Char) → List Char
  | [] => []
  | [s] => s
  | s :: rest => s ++ ',' :: joinSegs rest

theorem joinSegs_cons_of_ne_nil {s : List Char} {rest : List (List Char)}
    (h : rest ≠ []) : joinSegs (s :: rest) = s ++ ',' :: joinSegs rest := by
  cases rest with
  | nil => exact absurd rfl h
  | cons r rs => rfl

theorem isIdChar_not_ws {c : Char} (h : isIdChar c = true) : isRegexWs c = false := by
  simp only [isIdChar, isAsciiLetter, Bool.or_eq_true, Bool.and_eq_true,
    decide_eq_true_eq] at h
  simp only [isRegexWs, Bool.or_eq_false_iff, decide_eq_false_iff_not]
  omega

theorem isIdChar_not_goSpace {c : Char} (h : isIdChar c = true) :
    isGoSpace c = false := by
  simp only [isIdChar, isAsciiLetter, Bool.or_eq_true, Bool.and_eq_true,
    decide_eq_true_eq] at h
  simp only [isGoSpace, Bool.or_eq_false_iff, Bool.and_eq_false_iff,
    decide_eq_false_iff_not]
  omega

theorem isIdChar_ne_comma {c : Char} (h : isIdChar c = true) : c ≠ ',' :=
  fun he => absurd (he ▸ h) (by decide)

theorem isRegexWs_ne_comma {c : Char} (h : isRegexWs c = true) : c ≠ ',' :=
  fun he => absurd (he ▸ h) (by decide)

theorem mem_of_head? {α : Type} {l : List α} {a : α} (h : l.head? = some a) :
    a ∈ l := by
  cases l with
  | nil => simp at h
  | cons x t =>
    simp only [List.head?_cons, Option.some.injEq] at h
    exact h ▸ List.mem_cons_self x t

/-- Decomposition of a bare segment. -/
theorem isBareSeg_decomp {seg : List Char} (h : isBareSeg seg = true) :
    ∃ w1 ids w2, seg = w1 ++ ids ++ w2 ∧ ids ≠ [] ∧
      (∀ c ∈ w1, isRegexWs c = true) ∧ (∀ c ∈ ids, isIdChar c = true) ∧
      (∀ c ∈ w2, isRegexWs c = true) := by
  unfold isBareSeg at h
  simp only [Bool.and_eq_true, Bool.not_eq_true', List.isEmpty_eq_false,
    List.all_eq_true] at h
  refine ⟨seg.takeWhile isRegexWs,
    (seg.dropWhile isRegexWs).takeWhile isIdChar,
    (seg.dropWhile isRegexWs).dropWhile isIdChar, ?_, h.1, ?_, ?_, ?_⟩
  · rw [List.append_assoc, List.takeWhile_append_dropWhile,
      List.takeWhile_append_dropWhile]
  · exact fun c hc => List.mem_takeWhile_imp hc
  · exact fun c hc => List.mem_takeWhile_imp hc
  · exact fun c hc => h.2 c hc

/-- Whitespace characters are not ID characters. -/
theorem isRegexWs_not_id {c : Char} (h : isRegexWs c = true) : isIdChar c = false := by
  simp only [isRegexWs, Bool.or_eq_true, decide_eq_true_eq] at h
  simp only [isIdChar, isAsciiLetter, Bool.or_eq_false_iff, Bool.and_eq_false_iff,
    decide_eq_false_iff_not]
  omega

/-- The three scans of `tryBare` on a bare segment followed by either
    nothing or a comma-started remainder. -/
theorem spans_of_bare (σ : List Char) {w1 ids w2 : List Char}
    (hw1 : ∀ c ∈ w1, isRegexWs c = true) (hids : ids ≠ [])
    (hid : ∀ c ∈ ids, isIdChar c = true) (hw2 : ∀ c ∈ w2, isRegexWs c = true)
    (hσ : ∀ c, σ.head? = some c → (isRegexWs c = false ∧ isIdChar c = false)) :
    ((w1 ++ ids ++ w2) ++ σ).takeWhile isRegexWs = w1 ∧
    ((w1 ++ ids ++ w2) ++ σ).dropWhile isRegexWs = ids ++ (w2 ++ σ) ∧
    (ids ++ (w2 ++ σ)).takeWhile isIdChar = ids ∧
    (ids ++ (w2 ++ σ)).dropWhile isIdChar = w2 ++ σ ∧
    (w2 ++ σ).takeWhile isRegexWs = w2 ∧
    (w2 ++ σ).dropWhile isRegexWs = σ := by
  obtain ⟨i, ids0, hi⟩ : ∃ i ids0, ids = i :: ids0 := by
    cases ids with
    | nil => exact absurd rfl hids
    | cons i ids0 => exact ⟨i, ids0, rfl⟩
  have hiid : isIdChar i = true := hid i (by rw [hi]; exact List.mem_cons_self _ _)
  have hiws : isRegexWs i = false := isIdChar_not_ws hiid
  have hσws : ∀ c, σ.head? = some c → isRegexWs c = false := fun c hc => (hσ c hc).1
  have hw2σ_id : ∀ c, (w2 ++ σ).head? = some c → isIdChar c = false := by
    intro c hc
    cases w2 with
    | nil => exact (hσ c (by simpa using hc)).2
    | cons x xs =>
      simp only [List.cons_append, List.head?_cons, Option.some.injEq] at hc
      rw [← hc]
      exact isRegexWs_not_id (hw2 x (List.mem_cons_self x xs))
  have e5 : (w2 ++ σ).takeWhile isRegexWs = w2 := by
    rw [takeWhile_append_all hw2]
    cases hσ0 : σ with
    | nil => simp
    | cons y ys =>
      have hy := hσws y (by rw [hσ0]; rfl)
      rw [List.takeWhile_cons]
      simp [hy]
  have e6 : (w2 ++ σ).dropWhile isRegexWs = σ := by
    rw [dropWhile_append_all hw2]
    exact dropWhile_eq_self_of_head hσws
  have e3 : (ids ++ (w2 ++ σ)).takeWhile isIdChar = ids := by
    rw [takeWhile_append_all hid]
    cases h0 : w2 ++ σ with
    | nil => simp
    | cons y ys =>
      have hy := hw2σ_id y (by rw [h0]; rfl)
      rw [List.takeWhile_cons]
      simp [hy]
  have e4 : (ids ++ (w2 ++ σ)).dropWhile isIdChar = w2 ++ σ := by
    rw [dropWhile_append_all hid]
    exact dropWhile_eq_self_of_head hw2σ_id
  have e1 : ((w1 ++ ids ++ w2) ++ σ).takeWhile isRegexWs = w1 := by
    rw [List.append_assoc, List.append_assoc, takeWhile_append_all hw1, hi]
    simp only [List.cons_append, List.takeWhile_cons, hiws]
    simp
  have e2 : ((w1 ++ ids ++ w2) ++ σ).dropWhile isRegexWs = ids ++ (w2 ++ σ) := by
    rw [List.append_assoc, List.append_assoc, dropWhile_append_all hw1]
    apply dropWhile_eq_self_of_head
    intro c hc
    rw [hi] at hc
    simp only [List.cons_append, List.head?_cons, Option.some.injEq] at hc
    rw [← hc]
    exact hiws
  exact ⟨e1, e2, e3, e4, e5, e6⟩

/-- `tryBare` succeeds on a lone bare segment. -/
theorem tryBare_bare_nil {w1 ids w2 : List Char}
    (hw1 : ∀ c ∈ w1, isRegexWs c = true) (hids : ids ≠ [])
    (hid : ∀ c ∈ ids, isIdChar c = true) (hw2 : ∀ c ∈ w2, isRegexWs c = true) :
    tryBare (w1 ++ ids ++ w2) = some (w1 ++ ids ++ w2) := by
  obtain ⟨e1, e2, e3, e4, e5, e6⟩ :=
    spans_of_bare [] hw1 hids hid hw2 (fun c hc => by simp at hc)
  simp only [List.append_nil] at e1 e2 e3 e4 e5 e6
  unfold tryBare
  dsimp only
  rw [e2, e3, e4, e5, e6, e1]
  rw [if_neg (by simp [List.isEmpty_iff, hids])]

/-- `tryBare` succeeds on a bare segment with a comma boundary,
    consuming the comma. -/
theorem tryBare_bare_comma (ρ : List Char) {w1 ids w2 : List Char}
    (hw1 : ∀ c ∈ w1, isRegexWs c = true) (hids : ids ≠ [])
    (hid : ∀ c ∈ ids, isIdChar c = true) (hw2 : ∀ c ∈ w2, isRegexWs c = true) :
    tryBare ((w1 ++ ids ++ w2) ++ ',' :: ρ) = some (w1 ++ ids ++ w2 ++ [',']) := by
  obtain ⟨e1, e2, e3, e4, e5, e6⟩ :=
    spans_of_bare (',' :: ρ) hw1 hids hid hw2 (fun c hc => by
      simp only [List.head?_cons, Option.some.injEq] at hc
      rw [← hc]
      exact ⟨by decide, by decide⟩)
  unfold tryBare
  dsimp only
  rw [e2, e3, e4, e5, e6, e1]
  rw [if_neg (by simp [List.isEmpty_iff, hids])]
  dsimp only
  rw [if_pos rfl]

/-- `tryBare` fails on a non-bare comma-free segment at a comma/end
    boundary. -/
theorem tryBare_nonbare (σ : List Char) {seg : List Char}
    (hnb : isBareSeg seg = false) (hcf : ',' ∉ seg)
    (hσ : σ = [] ∨ ∃ ρ, σ = ',' :: ρ) :
    tryBare (seg ++ σ) = none := by
  have hsplit : seg ++ σ
      = seg.takeWhile isRegexWs ++ (seg.dropWhile isRegexWs ++ σ) := by
    rw [← List.append_assoc, List.takeWhile_append_dropWhile]
  unfold tryBare
  dsimp only
  rw [hsplit, dropWhile_append_all (fun c hc => List.mem_takeWhile_imp hc)]
  cases hr1 : seg.dropWhile isRegexWs with
  | nil =>
    simp only [List.nil_append]
    rcases hσ with h | ⟨ρ, h⟩ <;> subst h
    · rw [if_pos (by simp)]
    · rw [show List.dropWhile isRegexWs (',' :: ρ) = ',' :: ρ from by
        rw [List.dropWhile_cons, if_neg (by decide)]]
      rw [if_pos (by rw [List.takeWhile_cons, if_neg (by decide)]; rfl)]
  | cons h1 r1' =>
    have hh1ws : isRegexWs h1 = false :=
      head?_dropWhile_false (by rw [hr1]; rfl)
    have hdr : List.dropWhile isRegexWs (h1 :: r1' ++ σ) = h1 :: r1' ++ σ := by
      apply dropWhile_eq_self_of_head
      intro c hc
      simp only [List.cons_append, List.head?_cons, Option.some.injEq] at hc
      rw [← hc]
      exact hh1ws
    rw [show (h1 :: r1') ++ σ = h1 :: r1' ++ σ from rfl, hdr]
    by_cases hid1 : isIdChar h1 = true
    · -- the run of id chars is non-empty: the trailing text decides
      have hids_ne : (h1 :: r1').takeWhile isIdChar ≠ [] := by
        rw [List.takeWhile_cons, if_pos hid1]
        simp
      have hall : ((h1 :: r1').dropWhile isIdChar).all isRegexWs = false := by
        unfold isBareSeg at hnb
        rw [hr1] at hnb
        simp only [Bool.and_eq_false_iff, Bool.not_eq_false',
          List.isEmpty_iff] at hnb
        rcases hnb with h | h
        · exact absurd h hids_ne
        · exact h
      have hr1w : h1 :: r1'
          = (h1 :: r1').takeWhile isIdChar ++ (h1 :: r1').dropWhile isIdChar :=
        (List.takeWhile_append_dropWhile isIdChar (h1 :: r1')).symm
      have hw2r_head : ∀ c, ((h1 :: r1').dropWhile isIdChar).head? = some c →
          isIdChar c = false := fun c hc => head?_dropWhile_false hc
      have hw2r_ne : ((h1 :: r1').dropWhile isIdChar).dropWhile isRegexWs ≠ [] := by
        intro h0
        rw [List.dropWhile_eq_nil_iff] at h0
        rw [← List.all_eq_true] at h0
        rw [h0] at hall
        exact Bool.noConfusion hall
      obtain ⟨x, xb, hx⟩ : ∃ x xb,
          ((h1 :: r1').dropWhile isIdChar).dropWhile isRegexWs = x :: xb := by
        cases h0 : ((h1 :: r1').dropWhile isIdChar).dropWhile isRegexWs with
        | nil => exact absurd h0 hw2r_ne
        | cons x xb => exact ⟨x, xb, rfl⟩
      have hxws : isRegexWs x = false := head?_dropWhile_false (by rw [hx]; rfl)
      have hxmem : x ∈ seg := by
        have h1m : x ∈ (h1 :: r1').dropWhile isIdChar :=
          (List.dropWhile_sublist isRegexWs).mem
            (by rw [hx]; exact List.mem_cons_self x xb)
        have h2m : x ∈ h1 :: r1' := (List.dropWhile_sublist isIdChar).mem h1m
        rw [← hr1] at h2m
        exact (List.dropWhile_sublist isRegexWs).mem h2m
      have hxcomma : x ≠ ',' := fun he => hcf (he ▸ hxmem)
      have hw2rσ_head : ∀ c, ((h1 :: r1').dropWhile isIdChar ++ σ).head? = some c →
          isIdChar c = false := by
        intro c hc
        cases hw0 : (h1 :: r1').dropWhile isIdChar with
        | nil =>
          rw [hw0] at hx
          simp at hx
        | cons y yb =>
          rw [hw0] at hc
          simp only [List.cons_append, List.head?_cons, Option.some.injEq] at hc
          rw [← hc]
          exact hw2r_head y (by rw [hw0]; rfl)
      have et : (h1 :: r1' ++ σ).takeWhile isIdChar
          = (h1 :: r1').takeWhile isIdChar := by
        conv =>
          lhs
          rw [show h1 :: r1' ++ σ = (h1 :: r1') ++ σ from rfl, hr1w,
            List.append_assoc]
        rw [takeWhile_append_all (fun c hc => List.mem_takeWhile_imp hc)]
        have hz : List.takeWhile isIdChar ((h1 :: r1').dropWhile isIdChar ++ σ)
            = [] := by
          cases hw0 : (h1 :: r1').dropWhile isIdChar ++ σ with
          | nil => rfl
          | cons y ys =>
            rw [List.takeWhile_cons, hw2rσ_head y (by rw [hw0]; rfl)]
            simp
        rw [hz, List.append_nil]
      have ed : (h1 :: r1' ++ σ).dropWhile isIdChar
          = (h1 :: r1').dropWhile isIdChar ++ σ := by
        conv =>
          lhs
          rw [show h1 :: r1' ++ σ = (h1 :: r1') ++ σ from rfl, hr1w,
            List.append_assoc]
        rw [dropWhile_append_all (fun c hc => List.mem_takeWhile_imp hc)]
        exact dropWhile_eq_self_of_head hw2rσ_head
      rw [et, ed]
      rw [if_neg (by simp [List.isEmpty_iff, hids_ne])]
      have efin : ((h1 :: r1').dropWhile isIdChar ++ σ).dropWhile isRegexWs
          = x :: (xb ++ σ) := by
        conv =>
          lhs
          rw [show (h1 :: r1').dropWhile isIdChar
              = ((h1 :: r1').dropWhile isIdChar).takeWhile isRegexWs
                ++ ((h1 :: r1').dropWhile isIdChar).dropWhile isRegexWs from
            (List.takeWhile_append_dropWhile isRegexWs
              ((h1 :: r1').dropWhile isIdChar)).symm,
            List.append_assoc]
        rw [dropWhile_append_all (fun c hc => List.mem_takeWhile_imp hc), hx]
        rw [show (x :: xb) ++ σ = x :: (xb ++ σ) from rfl]
        apply dropWhile_eq_self_of_head
        intro c hc
        simp only [List.head?_cons, Option.some.injEq] at hc
        rw [← hc]
        exact hxws
      rw [efin]
      dsimp only
      rw [if_neg hxcomma]
    · -- the very first non-whitespace character is not an id character
      rw [if_pos ?_]
      rw [show h1 :: r1' ++ σ = (h1 :: r1') ++ σ from rfl]
      cases σ with
      | nil =>
        rw [List.append_nil, List.takeWhile_cons,
          if_neg (by simpa using hid1)]
        rfl
      | cons y ys =>
        rw [List.cons_append, List.takeWhile_cons,
          if_neg (by simpa using hid1)]
        rfl

/-- `isRegexWs` characters are Go whitespace. -/
theorem isRegexWs_goSpace {c : Char} (h : isRegexWs c = true) :
    isGoSpace c = true := by
  simp only [isRegexWs, Bool.or_eq_true, decide_eq_true_eq] at h
  simp only [isGoSpace, Bool.or_eq_true, Bool.and_eq_true, decide_eq_true_eq]
  omega

/-- Trimming a bare segment leaves exactly its run of ID characters. -/
theorem trimSpace_bare {w1 ids w2 : List Char}
    (hw1 : ∀ c ∈ w1, isRegexWs c = true) (hids : ids ≠ [])
    (hid : ∀ c ∈ ids, isIdChar c = true) (hw2 : ∀ c ∈ w2, isRegexWs c = true) :
    trimSpace (w1 ++ ids ++ w2) = ids := by
  obtain ⟨i, ids0, hi⟩ : ∃ i ids0, ids = i :: ids0 := by
    cases ids with
    | nil => exact absurd rfl hids
    | cons i ids0 => exact ⟨i, ids0, rfl⟩
  unfold trimSpace
  have h1 : List.dropWhile isGoSpace (w1 ++ ids ++ w2) = ids ++ w2 := by
    rw [List.append_assoc,
      dropWhile_append_all (fun c hc => isRegexWs_goSpace (hw1 c hc))]
    apply dropWhile_eq_self_of_head
    intro c hc
    rw [hi] at hc
    simp only [List.cons_append, List.head?_cons, Option.some.injEq] at hc
    rw [← hc]
    exact isIdChar_not_goSpace (hid i (by rw [hi]; exact List.mem_cons_self _ _))
  rw [h1, List.reverse_append]
  have h2 : List.dropWhile isGoSpace (w2.reverse ++ ids.reverse)
      = ids.reverse := by
    rw [dropWhile_append_all (fun c hc =>
      isRegexWs_goSpace (hw2 c (List.mem_reverse.mp hc)))]
    apply dropWhile_eq_self_of_head
    intro c hc
    exact isIdChar_not_goSpace (hid c (List.mem_reverse.mp (mem_of_head? hc)))
  rw [h2, List.reverse_reverse]

/-- `findIDAux` skips over a comma-free prefix. -/
theorem findIDAux_append_nocomma (p l : List Char) (hp : ',' ∉ p) :
    findIDAux (p ++ l) = findIDAux l := by
  induction p with
  | nil => rfl
  | cons c t ih =>
    have h1 : ¬(c = ',') := by
      intro he
      exact hp (by rw [he]; exact List.mem_cons_self _ _)
    have h2 : ',' ∉ t := fun hm => hp (List.mem_cons_of_mem c hm)
    rw [List.cons_append]
    simp only [findIDAux]
    rw [if_neg h1]
    exact ih h2

/-- `tryBare` finds nothing in a body made of non-bare comma-free
    segments. -/
theorem tryBare_joinSegs_none {segs : List (List Char)}
    (h : ∀ seg ∈ segs, isBareSeg seg = false ∧ ',' ∉ seg) :
    tryBare (joinSegs segs) = none := by
  cases segs with
  | nil => rfl
  | cons s rest =>
    cases rest with
    | nil =>
      rw [show joinSegs [s] = s from rfl, ← List.append_nil s]
      exact tryBare_nonbare [] (h s (List.mem_cons_self _ _)).1
        (h s (List.mem_cons_self _ _)).2 (Or.inl rfl)
    | cons r more =>
      rw [show joinSegs (s :: r :: more) = s ++ ',' :: joinSegs (r :: more)
        from rfl]
      exact tryBare_nonbare (',' :: joinSegs (r :: more))
        (h s (List.mem_cons_self _ _)).1 (h s (List.mem_cons_self _ _)).2
        (Or.inr ⟨joinSegs (r :: more), rfl⟩)

/-- `findIDAux` finds nothing in a body made of non-bare comma-free
    segments. -/
theorem findIDAux_joinSegs_none {segs : List (List Char)}
    (h : ∀ seg ∈ segs, isBareSeg seg = false ∧ ',' ∉ seg) :
    findIDAux (joinSegs segs) = none := by
  induction segs with
  | nil => rfl
  | cons s rest ih =>
    have hs := h s (List.mem_cons_self _ _)
    have hrest : ∀ seg ∈ rest, isBareSeg seg = false ∧ ',' ∉ seg :=
      fun seg hm => h seg (List.mem_cons_of_mem s hm)
    cases rest with
    | nil =>
      rw [show joinSegs [s] = s from rfl, ← List.append_nil s,
        findIDAux_append_nocomma s [] hs.2]
      rfl
    | cons r more =>
      rw [show joinSegs (s :: r :: more) = s ++ ',' :: joinSegs (r :: more)
          from rfl,
        findIDAux_append_nocomma s (',' :: joinSegs (r :: more)) hs.2]
      unfold findIDAux
      rw [if_pos rfl, tryBare_joinSegs_none hrest]
      dsimp only
      exact ih hrest

/-- `regexFindID` finds nothing in a body made of non-bare comma-free
    segments. -/
theorem findID_joinSegs_none {segs : List (List Char)}
    (h : ∀ seg ∈ segs, isBareSeg seg = false ∧ ',' ∉ seg) :
    findID (joinSegs segs) = none := by
  unfold findID
  rw [tryBare_joinSegs_none h]
  exact findIDAux_joinSegs_none h

/-- Scanning from a comma, `findIDAux` matches the first bare segment,
    with the leading comma and — when another segment follows — the
    trailing comma included in the match. -/
theorem findIDAux_joinSegs_key (post : List (List Char)) {key : List Char}
    (hkey : isBareSeg key = true) :
    ∀ pre, pre ≠ [] → (∀ seg ∈ pre, isBareSeg seg = false ∧ ',' ∉ seg) →
    findIDAux (joinSegs (pre ++ key :: post))
      = some (',' :: (key ++ (if post = [] then [] else [',']))) := by
  intro pre
  induction pre with
  | nil => intro hne _; exact absurd rfl hne
  | cons p0 pre2 ih =>
    intro _ hpre
    have hp0 := hpre p0 (List.mem_cons_self _ _)
    have hpre2 : ∀ seg ∈ pre2, isBareSeg seg = false ∧ ',' ∉ seg :=
      fun seg hm => hpre seg (List.mem_cons_of_mem p0 hm)
    rw [show (p0 :: pre2) ++ key :: post = p0 :: (pre2 ++ key :: post) from rfl,
      joinSegs_cons_of_ne_nil (by simp),
      findIDAux_append_nocomma p0 (',' :: joinSegs (pre2 ++ key :: post)) hp0.2]
    unfold findIDAux
    rw [if_pos rfl]
    cases pre2 with
    | nil =>
      simp only [List.nil_append]
      cases post with
      | nil =>
        rw [show joinSegs [key] = key from rfl]
        obtain ⟨w1, ids, w2, hk, hids, hw1, hid, hw2⟩ := isBareSeg_decomp hkey
        subst hk
        rw [tryBare_bare_nil hw1 hids hid hw2]
        simp
      | cons q qs =>
        rw [show joinSegs (key :: q :: qs) = key ++ ',' :: joinSegs (q :: qs)
          from rfl]
        obtain ⟨w1, ids, w2, hk, hids, hw1, hid, hw2⟩ := isBareSeg_decomp hkey
        subst hk
        rw [tryBare_bare_comma (joinSegs (q :: qs)) hw1 hids hid hw2]
        simp [List.append_assoc]
    | cons p1 pre3 =>
      have hp1 := hpre2 p1 (List.mem_cons_self _ _)
      rw [show (p1 :: pre3) ++ key :: post = p1 :: (pre3 ++ key :: post)
          from rfl,
        joinSegs_cons_of_ne_nil (by simp)]
      rw [tryBare_nonbare (',' :: joinSegs (pre3 ++ key :: post)) hp1.1 hp1.2
        (Or.inr ⟨joinSegs (pre3 ++ key :: post), rfl⟩)]
      dsimp only
      have hfa := ih (by simp) hpre2
      rw [show (p1 :: pre3) ++ key :: post = p1 :: (pre3 ++ key :: post)
          from rfl,
        joinSegs_cons_of_ne_nil (by simp)] at hfa
      exact hfa

/-- `regexFindID.FindString` on a comma-joined body with exactly one bare
    segment: the match is that segment, with the neighbouring comma on
    each side that exists included. -/
theorem findID_joinSegs_key (pre post : List (List Char)) {key : List Char}
    (hpre : ∀ seg ∈ pre, isBareSeg seg = false ∧ ',' ∉ seg)
    (hkey : isBareSeg key = true) :
    findID (joinSegs (pre ++ key :: post))
      = some ((if pre = [] then [] else [',']) ++
          (key ++ (if post = [] then [] else [',']))) := by
  cases pre with
  | nil =>
    simp only [List.nil_append]
    unfold findID
    obtain ⟨w1, ids, w2, hk, hids, hw1, hid, hw2⟩ := isBareSeg_decomp hkey
    cases post with
    | nil =>
      rw [show joinSegs [key] = key from rfl]
      subst hk
      rw [tryBare_bare_nil hw1 hids hid hw2]
      simp
    | cons q qs =>
      rw [show joinSegs (key :: q :: qs) = key ++ ',' :: joinSegs (q :: qs)
        from rfl]
      subst hk
      rw [tryBare_bare_comma (joinSegs (q :: qs)) hw1 hids hid hw2]
      simp [List.append_assoc]
  | cons p0 pre2 =>
    have hp0 := hpre p0 (List.mem_cons_self _ _)
    unfold findID
    rw [show (p0 :: pre2) ++ key :: post = p0 :: (pre2 ++ key :: post) from rfl,
      joinSegs_cons_of_ne_nil (by simp)]
    rw [tryBare_nonbare (',' :: joinSegs (pre2 ++ key :: post)) hp0.1 hp0.2
      (Or.inr ⟨joinSegs (pre2 ++ key :: post), rfl⟩)]
    dsimp only
    have hfa := findIDAux_joinSegs_key post hkey (p0 :: pre2) (by simp) hpre
    rw [show (p0 :: pre2) ++ key :: post = p0 :: (pre2 ++ key :: post) from rfl,
      joinSegs_cons_of_ne_nil (by simp)] at hfa
    rw [hfa, if_neg (List.cons_ne_nil p0 pre2)]
    rfl

/-- Stripping the one optional leading comma of a `regexFindID` match. -/
theorem stripLead {key : List Char} (tc pc : List Char) (hne : key ≠ [])
    (hh : ∀ c, key.head? = some c → c ≠ ',')
    (hpc : pc = [] ∨ pc = [',']) :
    (if (pc ++ (key ++ tc)).head? = some ',' then (pc ++ (key ++ tc)).tail
      else pc ++ (key ++ tc)) = key ++ tc := by
  rcases hpc with h | h <;> subst h
  · rw [List.nil_append]
    have hcond : ¬((key ++ tc).head? = some ',') := by
      intro hc
      rw [List.head?_append_of_ne_nil key hne] at hc
      exact hh ',' hc rfl
    rw [if_neg hcond]
  · rw [show ([','] ++ (key ++ tc)) = ',' :: (key ++ tc) from rfl,
      if_pos (show (',' :: (key ++ tc)).head? = some ',' from rfl)]
    rfl

/-- Stripping the one optional trailing comma of a `regexFindID` match. -/
theorem stripTrail {key : List Char} (tc : List Char) (hne : key ≠ [])
    (hl : ∀ c, key.getLast? = some c → c ≠ ',')
    (htc : tc = [] ∨ tc = [',']) :
    (if (key ++ tc).getLast? = some ',' then (key ++ tc).dropLast
      else key ++ tc) = key := by
  rcases htc with h | h <;> subst h
  · rw [List.append_nil]
    have hcond : ¬(key.getLast? = some ',') := fun hc => hl ',' hc rfl
    rw [if_neg hcond]
  · rw [if_pos (List.getLast?_concat key), List.dropLast_concat]

/-- `parseID` on a body that holds one bare segment among non-bare
    comma-free segments returns the trimmed bare segment, at any
    position. -/
theorem parseID_key_pos (hdr : List Char) (pre post : List (List Char))
    {key : List Char} (hh : '{' ∉ hdr)
    (hpre : ∀ seg ∈ pre, isBareSeg seg = false ∧ ',' ∉ seg)
    (hkey : isBareSeg key = true)
    (htr : trimSpace (joinSegs (pre ++ key :: post) ++ ['}'])
      = joinSegs (pre ++ key :: post) ++ ['}']) :
    parseID (hdr ++ '{' :: (joinSegs (pre ++ key :: post) ++ ['}']))
      = .ok (trimSpace key) := by
  obtain ⟨w1, ids, w2, hk, hids, hw1, hid, hw2⟩ := isBareSeg_decomp hkey
  have hkne : key ≠ [] := by
    rw [hk]
    intro h0
    rcases List.append_eq_nil.mp h0 with ⟨h1, h2⟩
    rcases List.append_eq_nil.mp h1 with ⟨h3, h4⟩
    exact hids h4
  have hmem : ∀ c ∈ key, c ≠ ',' := by
    intro c hc
    rw [hk] at hc
    rcases List.mem_append.mp hc with h | h
    · rcases List.mem_append.mp h with h2 | h2
      · exact isRegexWs_ne_comma (hw1 c h2)
      · exact isIdChar_ne_comma (hid c h2)
    · exact isRegexWs_ne_comma (hw2 c h)
  have hhd : ∀ c, key.head? = some c → c ≠ ',' :=
    fun c hc => hmem c (mem_of_head? hc)
  have hgl : ∀ c, key.getLast? = some c → c ≠ ',' :=
    fun c hc => hmem c (mem_of_getLast? hc)
  unfold parseID
  rw [cutBrace_append hh]
  dsimp only
  rw [htr, List.getLast?_concat]
  dsimp only
  rw [if_neg (fun h0 => h0 rfl), List.dropLast_concat,
    findID_joinSegs_key pre post hpre hkey, Option.getD_some]
  rw [stripLead (if post = [] then [] else [','])
    (if pre = [] then [] else [',']) hkne hhd (by cases pre <;> simp)]
  rw [stripTrail (if post = [] then [] else [',']) hkne hgl
    (by cases post <;> simp)]
  rw [hk, trimSpace_bare hw1 hids hid hw2]
  rw [if_neg (by simp [List.isEmpty_iff, hids])]

/-- `parseID` on a body whose segments are all non-bare and comma-free
    fails with the no-key-found error. -/
theorem parseID_no_key (hdr : List Char) (segs : List (List Char))
    (hh : '{' ∉ hdr)
    (hsegs : ∀ seg ∈ segs, isBareSeg seg = false ∧ ',' ∉ seg)
    (htr : trimSpace (joinSegs segs ++ ['}']) = joinSegs segs ++ ['}']) :
    parseID (hdr ++ '{' :: (joinSegs segs ++ ['}'])) = .error errNoKeyFound := by
  unfold parseID
  rw [cutBrace_append hh]
  dsimp only
  rw [htr, List.getLast?_concat]
  dsimp only
  rw [if_neg (fun h0 => h0 rfl), List.dropLast_concat, findID_joinSegs_none hsegs]
  rfl

/-- C5: key extraction is position-independent.  For every body whose
    comma-separated segments contain exactly one bare segment (optional
    whitespace, a non-empty run of letters, digits, hyphen, colon or
    underscore, optional whitespace) among comma-free non-bare segments
    such as name=value pairs, `parseID` returns that segment trimmed —
    whether it is the first, a middle or the last segment — and when
    every segment is non-bare it fails with the no-key-found error. -/
theorem C5_parseID_key_position :
    (∀ (hdr : List Char) (pre post : List (List Char)) (key : List Char),
      '{' ∉ hdr →
      (∀ seg ∈ pre, isBareSeg seg = false ∧ ',' ∉ seg) →
      isBareSeg key = true →
      trimSpace (joinSegs (pre ++ key :: post) ++ ['}'])
        = joinSegs (pre ++ key :: post) ++ ['}'] →
      parseID (hdr ++ '{' :: (joinSegs (pre ++ key :: post) ++ ['}']))
        = .ok (trimSpace key)) ∧
    (∀ (hdr : List Char) (segs : List (List Char)),
      '{' ∉ hdr →
      (∀ seg ∈ segs, isBareSeg seg = false ∧ ',' ∉ seg) →
      trimSpace (joinSegs segs ++ ['}']) = joinSegs segs ++ ['}'] →
      parseID (hdr ++ '{' :: (joinSegs segs ++ ['}'])) = .error errNoKeyFound) :=
  ⟨fun hdr pre post key hh hpre hkey htr =>
    parseID_key_pos hdr pre post hh hpre hkey htr,
   fun hdr segs hh hsegs htr => parseID_no_key hdr segs hh hsegs htr⟩

/-- The C5 theorem at concrete entries: the key in the middle position of
    `@book\x7bauthor = \x7bX\x7d, muster2024 ,date = \x22Y\x22\x7d`, and the
    no-key error on `@x\x7bauthor = \x7bX\x7d\x7d`. -/
theorem C5_parseID_key_position_witness :
    parseID (("@book\x7bauthor = \x7bX\x7d, muster2024 ,date = \x22Y\x22\x7d").data)
      = Except.ok (("muster2024").data) ∧
    parseID (("@x\x7bauthor = \x7bX\x7d\x7d").data)
      = Except.error errNoKeyFound :=
  ⟨C5_parseID_key_position.1 (("@book").data) [("author = \x7bX\x7d").data]
      [("date = \x22Y\x22").data] ((" muster2024 ").data)
      (by decide) (by decide) (by decide) (by decide),
   C5_parseID_key_position.2 (("@x").data) [("author = \x7bX\x7d").data]
      (by decide) (by decide) (by decide)⟩

end VerifyBibTeX
